import Mathlib

/-! CIGAR run-length sequences (`src/cigar.cpp`).

A shallow embedding of the `Cigar` value type of glia: a `Cigar` is a
`std::vector<CigarElement>`, modelled as a `List CigarElement`; a `std::string`
is modelled as a `List Char`.

The C++ `int` is modelled as `Int32`, the integers of the 32-bit two's-complement
range, and every `int` computation of the source (`+=`, the value returned by
`atoi`, the conversions from `size_t` and from unsigned lengths) is reduced to
that range by `wrap32`, as the compiled code does.

Reading `front()` or `back()` of an empty vector is undefined behaviour; the
functions that do so without a guard return `Option`, with `none` for the
undefined case.
-/

namespace Glia

/-! ## The machine integer `int` -/

/-- Reduction of an integer to the range of a 32-bit two's-complement `int`. -/
def wrap32 (z : Int) : Int := (z + 2147483648) % 4294967296 - 2147483648

/-- The C++ `int`: an integer of the 32-bit two's-complement range. -/
structure Int32 where
  val : Int
  inRange : -2147483648 ≤ val ∧ val < 2147483648
deriving DecidableEq

/-- Conversion of an integer value to `int`. -/
def Int32.ofInt (z : Int) : Int32 := ⟨wrap32 z, by unfold wrap32; omega⟩

instance (n : Nat) : OfNat Int32 n := ⟨Int32.ofInt n⟩

instance : Add Int32 := ⟨fun a b => Int32.ofInt (a.val + b.val)⟩

instance : LE Int32 := ⟨fun a b => a.val ≤ b.val⟩

instance : LT Int32 := ⟨fun a b => a.val < b.val⟩

instance (a b : Int32) : Decidable (a ≤ b) := inferInstanceAs (Decidable (a.val ≤ b.val))

instance (a b : Int32) : Decidable (a < b) := inferInstanceAs (Decidable (a.val < b.val))

instance : Repr Int32 := ⟨fun a n => reprPrec a.val n⟩

/-! ## Runs and sequences -/

/-- One run: `CigarElement` with its `int length` and `char type`. -/
structure CigarElement where
  length : Int32
  type : Char
deriving DecidableEq, Repr

/-- The class `Cigar` is a vector of `CigarElement`. -/
abbrev Cigar := List CigarElement

/-! ## Vector primitives used by the source -/

/-- Vector `front()`: undefined on the empty vector. -/
def front (c : Cigar) : Option CigarElement := c.head?

/-- Vector `back()`: undefined on the empty vector. -/
def back (c : Cigar) : Option CigarElement := c.getLast?

/-- Vector `push_back`. -/
def push_back (c : Cigar) (e : CigarElement) : Cigar := c ++ [e]

/-- The statement `back().length += n`, which changes the last element in place;
the addition is that of `int`. -/
def addToBack : Cigar → Int32 → Cigar
  | [], _ => []
  | [e], n => [{ e with length := e.length + n }]
  | e :: e' :: rest, n => e :: addToBack (e' :: rest) n

/-! ## `Cigar::append` -/

/-- First loop of `Cigar::append`:
`while (i != c.end() && back().type == i->type) { back().length += i->length; ++i; }`.
Returns the updated `*this` and the remaining range `[i, c.end())`. -/
def mergeLoop (self : Cigar) : List CigarElement → Cigar × List CigarElement
  | [] => (self, [])
  | e :: rest =>
    match back self with
    | some b =>
      if b.type = e.type then mergeLoop (addToBack self e.length) rest
      else (self, e :: rest)
    | none => (self, e :: rest)

/-- Second loop of `Cigar::append`:
`while (i != c.end()) { push_back(*i); ++i; }`. -/
def pushLoop (self : Cigar) : List CigarElement → Cigar
  | [] => self
  | e :: rest => pushLoop (push_back self e) rest

/-- The test `c.size() == 1 && c.front().length == 0` of `Cigar::append`. -/
def isSentinel (c : Cigar) : Bool :=
  c.length == 1 && (match front c with
    | some e => e.length == 0
    | none => false)

/-- `Cigar::append(const Cigar& c)`, returning the new value of `*this`. -/
def append (self c : Cigar) : Cigar :=
  if isSentinel c then
    self
  else if !self.isEmpty then
    let r := mergeLoop self c
    pushLoop r.1 r.2
  else
    c

/-- The free function `join`: fold by `append`, starting from the empty `Cigar`. -/
def join (cigars : List Cigar) : Cigar :=
  cigars.foldl append []

/-- `Cigar::Cigar(int i, char t)`. -/
def Cigar.single (i : Int32) (t : Char) : Cigar := push_back [] ⟨i, t⟩

/-! ## Derived metrics -/

/-- `Cigar::refLen`: the loop adds the length of each `M`, `D` or `X` run to the
`int len`. -/
def refLen (c : Cigar) : Int32 :=
  c.foldl (fun len e =>
    if e.type = 'M' ∨ e.type = 'D' ∨ e.type = 'X' then len + e.length else len) 0

/-- `Cigar::readLen`: the loop adds the length of each `M`, `I`, `X` or `S` run to
the `int len`. -/
def readLen (c : Cigar) : Int32 :=
  c.foldl (fun len e =>
    if e.type = 'M' ∨ e.type = 'I' ∨ e.type = 'X' ∨ e.type = 'S' then len + e.length
    else len) 0

/-- `Cigar::softClipStart`: reads `front()` with no emptiness test. -/
def softClipStart (c : Cigar) : Option Int32 :=
  match front c with
  | some e => some (if e.type = 'S' then e.length else 0)
  | none => none

/-- `Cigar::softClipEnd`: reads `back()` with no emptiness test. -/
def softClipEnd (c : Cigar) : Option Int32 :=
  match back c with
  | some e => some (if e.type = 'S' then e.length else 0)
  | none => none

/-- `Cigar::isReference`: `size() == 1 && front().type == 'M'`. -/
def isReference (c : Cigar) : Bool :=
  c.length == 1 && (match front c with
    | some e => e.type == 'M'
    | none => false)

/-! ## Text rendering and parsing -/

/-- Stream output of an `int`: decimal digits, with a leading minus sign when negative. -/
def writeInt (i : Int32) : List Char :=
  if i.val < 0 then '-' :: Nat.toDigits 10 i.val.natAbs else Nat.toDigits 10 i.val.toNat

/-- Stream output of a `CigarElement`: `o << e.length << e.type`. -/
def writeElement (o : List Char) (e : CigarElement) : List Char :=
  o ++ writeInt e.length ++ [e.type]

/-- Stream output of a `Cigar`: every element in order. -/
def writeCigar (o : List Char) (c : Cigar) : List Char :=
  c.foldl writeElement o

/-- `Cigar::str`: the text written to a fresh string stream. -/
def str (c : Cigar) : List Char := writeCigar [] c

/-- The C function `isdigit` on the characters `0` to `9`. -/
def isdigit (c : Char) : Bool := c.isDigit

/-- The C function `isspace` in the default locale. -/
def isspace (c : Char) : Bool :=
  c = ' ' || c = '\t' || c = '\n' || c = '\x0b' || c = '\x0c' || c = '\r'

/-- Value of the leading decimal digits of a string, continuing from `acc`. -/
def atoiDigits (acc : Nat) : List Char → Nat
  | [] => acc
  | c :: rest => if isdigit c then atoiDigits (10 * acc + (c.toNat - '0'.toNat)) rest else acc

/-- The C function `strtol` in base 10, which `atoi` calls: white space is skipped,
an optional sign is read, then the leading decimal digits; the value is 0 when
there are none and is clamped to the range of the 64-bit `long`. -/
def strtol : List Char → Int
  | [] => 0
  | c :: rest =>
    if isspace c then strtol rest
    else if c = '-' then max (-(atoiDigits 0 rest : Int)) (-9223372036854775808)
    else if c = '+' then min (atoiDigits 0 rest : Int) 9223372036854775807
    else min (atoiDigits 0 (c :: rest) : Int) 9223372036854775807

/-- The C function `atoi`: the value of `strtol` converted to `int`. -/
def atoi (s : List Char) : Int32 := Int32.ofInt (strtol s)

/-- Local state of the text constructor: the `number` and `type` buffers and the
elements pushed so far. -/
structure ParseState where
  number : List Char
  type : List Char
  out : Cigar
deriving DecidableEq, Repr

/-- Body of the scanning loop of `Cigar::Cigar(const string&)` for one character. -/
def parseStep (st : ParseState) (c : Char) : ParseState :=
  if isdigit c then
    if st.type.isEmpty then
      { st with number := st.number ++ [c] }
    else
      { number := [c], type := [],
        out := push_back st.out ⟨atoi st.number, st.type.headD '\x00'⟩ }
  else
    { st with type := st.type ++ [c] }

/-- The final test of the text constructor: the pending pair is pushed when both
buffers are non-empty. -/
def parseFinish (st : ParseState) : Cigar :=
  if !st.number.isEmpty && !st.type.isEmpty then
    push_back st.out ⟨atoi st.number, st.type.headD '\x00'⟩
  else
    st.out

/-- `Cigar::Cigar(const string& cigarStr)`. -/
def Cigar.ofString (cigarStr : List Char) : Cigar :=
  parseFinish (cigarStr.foldl parseStep ⟨[], [], []⟩)

/-! ## Construction from variant alleles -/

/-- Modelled from the spec: `BamTools::CigarOp`, whose declaration is not part of
`cigar.cpp`: "a sequence of `(length: unsigned integer, code: single character)`
pairs"; the unsigned length is 32 bits wide. The field `Type` is named `opType`. -/
structure CigarOp where
  opType : Char
  Length : Fin 4294967296
deriving DecidableEq, Repr

/-- Vector `clear()` on the output list. -/
def clear (_cigarData : List CigarOp) : List CigarOp := []

/-- Conversion of an `int` to the unsigned 32-bit `Length`: reduction modulo `2 ^ 32`. -/
def toUnsigned (z : Int32) : Fin 4294967296 :=
  ⟨(z.val % 4294967296).toNat, by omega⟩

/-- `Cigar::Cigar(vector<BamTools::CigarOp>& cigarData)`: one `push_back` per entry,
the unsigned `Length` being converted to the `int` parameter of `CigarElement`. -/
def Cigar.ofCigarData (cigarData : List CigarOp) : Cigar :=
  cigarData.foldl (fun self o => push_back self ⟨Int32.ofInt o.Length.val, o.opType⟩) []

/-- `Cigar::toCigarData(vector<BamTools::CigarOp>& cigarData)`, returning the new
content of `cigarData`: cleared first, then one entry per run. -/
def toCigarData (self : Cigar) (cigarData : List CigarOp) : List CigarOp :=
  self.foldl (fun data c => data ++ [⟨c.type, toUnsigned c.length⟩]) (clear cigarData)

/-! ## Specification-side vocabulary -/

/-- An integer value lies in the range of `int`. -/
def fitsInt (z : Int) : Prop := -2147483648 ≤ z ∧ z < 2147483648

instance (z : Int) : Decidable (fitsInt z) :=
  inferInstanceAs (Decidable (-2147483648 ≤ z ∧ z < 2147483648))

/-- No two adjacent runs have the same operation. -/
def noAdjacentSame : Cigar → Bool
  | [] => true
  | [_] => true
  | a :: b :: rest => a.type != b.type && noAdjacentSame (b :: rest)

/-- Sum of the lengths of a list of runs, as an integer. -/
def totalLength (c : List CigarElement) : Int := (c.map (fun e => e.length.val)).sum

/-- A token of a well-formed text: a decimal digit string and an operation character. -/
abbrev Token := List Char × Char

/-- A token is well formed when its digit string is non-empty and made of decimal
digits, and its operation character is not a digit. -/
def wellFormedToken (tk : Token) : Bool :=
  !tk.1.isEmpty && tk.1.all isdigit && !isdigit tk.2

/-- Text of a list of tokens: their concatenation. -/
def tokensText : List Token → List Char
  | [] => []
  | tk :: rest => tk.1 ++ tk.2 :: tokensText rest

/-- Value of a decimal digit string. -/
def decimalValue (d : List Char) : Nat :=
  d.foldl (fun a c => 10 * a + (c.toNat - '0'.toNat)) 0

/-- Sum of the lengths of the runs whose operation satisfies `p`, as an integer. -/
def lengthWhere (p : Char → Bool) (c : Cigar) : Int :=
  totalLength (c.filter (fun e => p e.type))

/-! ## Auxiliary definitions for the proofs -/

/-- Runs pushed for a list of tokens, one run per token. -/
def tokenRuns (toks : List Token) : Cigar :=
  toks.map (fun tk => ⟨atoi tk.1, tk.2⟩)

/-- Result of the two loops of `append` when `*this` is the single run `b`. -/
def glue (b : CigarElement) : List CigarElement → Cigar
  | [] => [b]
  | e :: rest =>
    if b.type = e.type then glue { b with length := b.length + e.length } rest
    else b :: e :: rest

/-- Result of the two loops of `append`, by recursion on `*this`; the empty
`*this` is given the copy of the argument. -/
def merge : Cigar → Cigar → Cigar
  | [], c => c
  | [b], c => glue b c
  | x :: y :: a, c => x :: merge (y :: a) c

/-! ## Lemmas on `int` arithmetic -/

theorem Int32.ext {a b : Int32} (h : a.val = b.val) : a = b := by
  cases a
  cases b
  simp_all

theorem Int32.ofInt_val (z : Int) : (Int32.ofInt z).val = wrap32 z := rfl

theorem Int32.add_val (a b : Int32) : (a + b).val = wrap32 (a.val + b.val) := rfl

theorem Int32.zero_val : (0 : Int32).val = 0 := by decide

theorem Int32.le_def (a b : Int32) : a ≤ b ↔ a.val ≤ b.val := Iff.rfl

theorem Int32.eq_zero_iff (a : Int32) : a = 0 ↔ a.val = 0 :=
  ⟨fun h => by rw [h, Int32.zero_val], fun h => Int32.ext (by rw [h, Int32.zero_val])⟩

theorem wrap32_of_fits (z : Int) (h : fitsInt z) : wrap32 z = z := by
  unfold fitsInt at h
  unfold wrap32
  omega

theorem wrap32_wrap32 (z : Int) : wrap32 (wrap32 z) = wrap32 z := by
  unfold wrap32
  omega

theorem wrap32_add_left (a b : Int) : wrap32 (wrap32 a + b) = wrap32 (a + b) := by
  unfold wrap32
  omega

theorem wrap32_add_right (a b : Int) : wrap32 (a + wrap32 b) = wrap32 (a + b) := by
  unfold wrap32
  omega

theorem wrap32_add_congr (a a' b b' : Int) (ha : wrap32 a = wrap32 a')
    (hb : wrap32 b = wrap32 b') : wrap32 (a + b) = wrap32 (a' + b') := by
  unfold wrap32 at *
  omega

theorem Int32.val_fits (a : Int32) : fitsInt a.val := a.inRange

theorem Int32.wrap32_val (a : Int32) : wrap32 a.val = a.val :=
  wrap32_of_fits a.val a.inRange

theorem Int32.ofInt_val_self (a : Int32) : Int32.ofInt a.val = a :=
  Int32.ext (a.wrap32_val)

theorem Int32.ofInt_eq_iff (x y : Int) : Int32.ofInt x = Int32.ofInt y ↔ wrap32 x = wrap32 y :=
  ⟨fun h => congrArg Int32.val h, fun h => Int32.ext h⟩

theorem Int32.add_eq_ofInt (a b : Int32) : a + b = Int32.ofInt (a.val + b.val) := rfl

theorem Int32.add_assoc (a b c : Int32) : a + b + c = a + (b + c) :=
  Int32.ext (by
    show wrap32 (wrap32 (a.val + b.val) + c.val) = wrap32 (a.val + wrap32 (b.val + c.val))
    rw [wrap32_add_left, wrap32_add_right, Int.add_assoc])

/-! ## Lemmas on `append` -/

theorem pushLoop_eq (self : Cigar) (r : List CigarElement) : pushLoop self r = self ++ r := by
  induction r generalizing self with
  | nil => simp [pushLoop]
  | cons e rest ih => simp [pushLoop, push_back, ih]

theorem mergeLoop_single (b : CigarElement) (c : List CigarElement) :
    (mergeLoop [b] c).1 ++ (mergeLoop [b] c).2 = glue b c := by
  induction c generalizing b with
  | nil => simp [mergeLoop, glue]
  | cons e rest ih =>
    by_cases h : b.type = e.type
    · simp [mergeLoop, glue, back, h, addToBack, ih]
    · simp [mergeLoop, glue, back, h]

theorem mergeLoop_cons (x : CigarElement) (s : Cigar) (hs : s ≠ []) (c : List CigarElement) :
    mergeLoop (x :: s) c = (x :: (mergeLoop s c).1, (mergeLoop s c).2) := by
  induction c generalizing s with
  | nil => simp [mergeLoop]
  | cons e rest ih =>
    obtain ⟨y, s', rfl⟩ := List.exists_cons_of_ne_nil hs
    have hb : back (x :: y :: s') = back (y :: s') := by simp [back, List.getLast?_cons_cons]
    have hne : addToBack (y :: s') e.length ≠ [] := by
      cases s' <;> simp [addToBack]
    cases hbk : back (y :: s') with
    | none => simp [mergeLoop, hb, hbk]
    | some b =>
      by_cases h : b.type = e.type
      · simp only [mergeLoop, hb, hbk, h, if_true, addToBack]
        exact ih _ hne
      · simp [mergeLoop, hb, hbk, h]

theorem loops_eq_merge (self : Cigar) (hs : self ≠ []) (c : List CigarElement) :
    pushLoop (mergeLoop self c).1 (mergeLoop self c).2 = merge self c := by
  rw [pushLoop_eq]
  induction self with
  | nil => exact absurd rfl hs
  | cons x s ih =>
    cases s with
    | nil => simpa [merge] using mergeLoop_single x c
    | cons y s' =>
      rw [mergeLoop_cons x (y :: s') (by simp) c]
      simp only [merge, List.cons_append]
      rw [ih (by simp)]

theorem append_eq_merge (self c : Cigar) :
    append self c = if isSentinel c then self else merge self c := by
  unfold append
  by_cases hc : isSentinel c = true
  · simp [hc]
  · cases self with
    | nil => simp [hc, merge]
    | cons x s => simp [hc, loops_eq_merge (x :: s) (by simp) c]

theorem isSentinel_single (e : CigarElement) : isSentinel [e] = (e.length == 0) := rfl

theorem isSentinel_iff (c : Cigar) : isSentinel c = true ↔ ∃ t, c = [⟨0, t⟩] := by
  constructor
  · intro h
    cases c with
    | nil => exact absurd h (by decide)
    | cons e rest =>
      cases rest with
      | nil =>
        rw [isSentinel_single, beq_iff_eq] at h
        refine ⟨e.type, ?_⟩
        rw [← h]
      | cons e' rest' =>
        have hf : isSentinel (e :: e' :: rest') = false := by
          simp [isSentinel]
        rw [hf] at h
        exact absurd h (by decide)
  · rintro ⟨t, rfl⟩
    rw [isSentinel_single, beq_iff_eq]

theorem isSentinel_eq_false (c : Cigar) (h : ¬ ∃ t, c = [⟨0, t⟩]) : isSentinel c = false := by
  cases hs : isSentinel c with
  | false => rfl
  | true => exact absurd ((isSentinel_iff c).1 hs) h

theorem not_single_zero (c : Cigar) (h : isSentinel c = false) : ¬ ∃ t, c = [⟨0, t⟩] := by
  intro hex
  rw [(isSentinel_iff c).2 hex] at h
  exact absurd h (by decide)

theorem totalLength_nil : totalLength [] = 0 := rfl

theorem totalLength_cons (e : CigarElement) (c : List CigarElement) :
    totalLength (e :: c) = e.length.val + totalLength c := by
  simp [totalLength]

theorem glue_eq (b : CigarElement) (c : List CigarElement) :
    glue b c =
      ⟨Int32.ofInt (b.length.val + totalLength (c.takeWhile (fun e => e.type == b.type))),
        b.type⟩ :: c.dropWhile (fun e => e.type == b.type) := by
  induction c generalizing b with
  | nil =>
    rw [List.takeWhile_nil, List.dropWhile_nil, totalLength_nil, Int.add_zero,
      Int32.ofInt_val_self]
    rfl
  | cons e rest ih =>
    by_cases h : b.type = e.type
    · have h' : (e.type == b.type) = true := by simp [h]
      have hg : glue b (e :: rest) = glue ⟨b.length + e.length, b.type⟩ rest := by
        simp [glue, h]
      rw [hg, ih, List.takeWhile_cons, List.dropWhile_cons]
      simp only [h', if_true, totalLength_cons]
      congr 2
      rw [Int32.ofInt_eq_iff, Int32.add_val, wrap32_add_left, Int.add_assoc]
    · have h' : (e.type == b.type) = false := by
        simpa using fun h2 : e.type = b.type => h h2.symm
      have hg : glue b (e :: rest) = b :: e :: rest := by
        simp [glue, h]
      rw [hg, List.takeWhile_cons, List.dropWhile_cons]
      simp only [h', Bool.false_eq_true, if_false, totalLength_nil, Int.add_zero,
        Int32.ofInt_val_self]

theorem merge_eq (self : Cigar) (hs : self ≠ []) (c : List CigarElement) :
    merge self c = self.dropLast ++ glue (self.getLast hs) c := by
  induction self with
  | nil => exact absurd rfl hs
  | cons x s ih =>
    cases s with
    | nil => simp [merge]
    | cons y s' =>
      have := ih (by simp)
      simp [merge, this, List.dropLast]

/-! ## Lemmas on merging -/

theorem merge_cons (x : CigarElement) (s : Cigar) (hs : s ≠ []) (c : Cigar) :
    merge (x :: s) c = x :: merge s c := by
  obtain ⟨y, s', rfl⟩ := List.exists_cons_of_ne_nil hs
  simp [merge]

theorem glue_head (b : CigarElement) (c : List CigarElement) :
    ∃ y l, glue b c = y :: l ∧ y.type = b.type :=
  ⟨_, _, glue_eq b c, rfl⟩

theorem merge_head (x : CigarElement) (s : Cigar) (c : Cigar) :
    ∃ y l, merge (x :: s) c = y :: l ∧ y.type = x.type := by
  cases s with
  | nil => simpa [merge] using glue_head x c
  | cons y s' => exact ⟨x, _, merge_cons x (y :: s') (by simp) c, rfl⟩

theorem merge_ne_nil (a : Cigar) (ha : a ≠ []) (c : Cigar) : merge a c ≠ [] := by
  obtain ⟨x, s, rfl⟩ := List.exists_cons_of_ne_nil ha
  obtain ⟨y, l, h, _⟩ := merge_head x s c
  simp [h]

theorem glue_same (x e : CigarElement) (c : List CigarElement) (h : x.type = e.type) :
    glue x (e :: c) = glue ⟨x.length + e.length, x.type⟩ c := by
  simp [glue, h]

theorem glue_of_head_ne (x y : CigarElement) (l : List CigarElement) (h : ¬ x.type = y.type) :
    glue x (y :: l) = x :: y :: l := by
  simp [glue, h]

theorem glue_glue (x e : CigarElement) (c : List CigarElement) (h : x.type = e.type) :
    glue x (glue e c) = glue ⟨x.length + e.length, x.type⟩ c := by
  induction c generalizing e with
  | nil => exact glue_same x e [] h
  | cons f rest ih =>
    by_cases hf : e.type = f.type
    · have hxf : x.type = f.type := h.trans hf
      rw [glue_same e f rest hf, glue_same ⟨x.length + e.length, x.type⟩ f rest hxf,
        ih ⟨e.length + f.length, e.type⟩ h, Int32.add_assoc]
    · have hxf : ¬ x.type = f.type := fun h2 => hf (h.symm.trans h2)
      rw [glue_of_head_ne e f rest hf, glue_same x e (f :: rest) h]

theorem glue_merge (x : CigarElement) (b c : Cigar) :
    merge (glue x b) c = glue x (merge b c) := by
  induction b generalizing x with
  | nil => simp [glue, merge]
  | cons e rest ih =>
    by_cases h : x.type = e.type
    · rw [glue_same x e rest h, ih]
      cases rest with
      | nil => simp [merge, glue_glue x e c h]
      | cons r rest' => rw [merge_cons e (r :: rest') (by simp), glue_same x e _ h]
    · obtain ⟨y, l, hm, hy⟩ := merge_head e rest c
      rw [glue_of_head_ne x e rest h, merge_cons x (e :: rest) (by simp), hm,
        glue_of_head_ne x y l (by rw [hy]; exact h)]

/-- The two loops of `append` are associative on run sequences. -/
theorem merge_assoc (a b c : Cigar) : merge (merge a b) c = merge a (merge b c) := by
  induction a with
  | nil => simp [merge]
  | cons x s ih =>
    cases s with
    | nil => simpa [merge] using glue_merge x b c
    | cons y s' =>
      rw [merge_cons x (y :: s') (by simp), merge_cons x (y :: s') (by simp),
        merge_cons x _ (merge_ne_nil _ (by simp) b), ih]

theorem Int32.nonneg_iff (a : Int32) : 0 ≤ a ↔ 0 ≤ a.val := by
  rw [Int32.le_def, Int32.zero_val]

theorem totalLength_nonneg (l : List CigarElement) (h : ∀ e ∈ l, 0 ≤ e.length) :
    0 ≤ totalLength l := by
  induction l with
  | nil => simp [totalLength]
  | cons e rest ih =>
    have h1 := (Int32.nonneg_iff _).1 (h e (by simp))
    have h2 := ih (fun e he => h e (by simp [he]))
    rw [totalLength_cons]
    omega

theorem totalLength_takeWhile_le (p : CigarElement → Bool) (l : List CigarElement)
    (h : ∀ e ∈ l, 0 ≤ e.length) :
    totalLength (l.takeWhile p) ≤ totalLength l := by
  induction l with
  | nil => simp
  | cons e rest ih =>
    have h1 := (Int32.nonneg_iff _).1 (h e (by simp))
    have hr : ∀ e ∈ rest, 0 ≤ e.length := fun e he => h e (by simp [he])
    have h2 := ih hr
    have h3 := totalLength_nonneg rest hr
    rw [List.takeWhile_cons]
    split
    · rw [totalLength_cons, totalLength_cons]
      omega
    · rw [totalLength_cons, totalLength_nil]
      omega

/-- With non-negative lengths whose total stays below `2 ^ 31`, merging two values
that are no sentinel gives no sentinel. -/
theorem merge_not_sentinel (b c : Cigar) (hb : isSentinel b = false) (hc : isSentinel c = false)
    (hcn : ∀ e ∈ c, 0 ≤ e.length) (hbn : ∀ e ∈ b, 0 ≤ e.length)
    (hsum : totalLength b + totalLength c < 2147483648) :
    isSentinel (merge b c) = false := by
  cases b with
  | nil => simpa [merge] using hc
  | cons x s =>
    cases s with
    | nil =>
      have hx : 0 ≤ x.length.val := (Int32.nonneg_iff _).1 (hbn x (by simp))
      have hx0 : x.length.val ≠ 0 := by
        intro h0
        have h1 : x.length = 0 := (Int32.eq_zero_iff _).2 h0
        rw [isSentinel_single, h1] at hb
        exact absurd hb (by decide)
      have ht : 0 ≤ totalLength (c.takeWhile (fun e => e.type == x.type)) :=
        totalLength_nonneg _ (fun e he => hcn e ((List.takeWhile_sublist _).subset he))
      have hle := totalLength_takeWhile_le (fun e => e.type == x.type) c hcn
      have hbx : totalLength [x] = x.length.val := by simp [totalLength]
      rw [hbx] at hsum
      cases hs : isSentinel (merge [x] c) with
      | false => rfl
      | true =>
        obtain ⟨t, ht'⟩ := (isSentinel_iff _).1 hs
        have hm : merge [x] c = glue x c := by simp [merge]
        rw [hm, glue_eq] at ht'
        have hlen := congrArg (fun l => (l.head?.map (fun e => e.length.val))) ht'
        simp only [List.head?_cons, Option.map_some', Option.some.injEq, Int32.ofInt_val,
          Int32.zero_val] at hlen
        rw [wrap32_of_fits _ ⟨by omega, by omega⟩] at hlen
        omega
    | cons y s' =>
      obtain ⟨z, l, hm, _⟩ := merge_head y s' c
      simp [merge_cons x (y :: s') (by simp), hm, isSentinel]

/-- Associativity of `append` on run sequences, when neither `b` nor `append b c`
is the zero-length sentinel. -/
theorem append_assoc_runs (a b c : Cigar) (hb : isSentinel b = false)
    (hbc : isSentinel (append b c) = false) :
    append (append a b) c = append a (append b c) := by
  cases hc : isSentinel c with
  | true => simp [append_eq_merge, hb, hc]
  | false =>
    have hm : isSentinel (merge b c) = false := by
      simpa [append_eq_merge, hc] using hbc
    simp [append_eq_merge, hb, hc, hm, merge_assoc]

/-- With non-negative lengths whose total stays below `2 ^ 31`, `append b c` is no
sentinel when `b` and `c` are none. -/
theorem append_not_sentinel (b c : Cigar) (hb : isSentinel b = false)
    (hc : isSentinel c = false)
    (hbn : ∀ e ∈ b, 0 ≤ e.length) (hcn : ∀ e ∈ c, 0 ≤ e.length)
    (hsum : totalLength b + totalLength c < 2147483648) :
    isSentinel (append b c) = false := by
  rw [append_eq_merge, hc]
  exact merge_not_sentinel b c hb hc hcn hbn hsum

/-! ## Lemmas on adjacent operations -/

theorem noAdjacentSame_cons_cons (x y : CigarElement) (l : List CigarElement) :
    noAdjacentSame (x :: y :: l) = (x.type != y.type && noAdjacentSame (y :: l)) := rfl

theorem noAdjacentSame_tail (x : CigarElement) (l : List CigarElement)
    (h : noAdjacentSame (x :: l) = true) : noAdjacentSame l = true := by
  cases l with
  | nil => rfl
  | cons y l' =>
    rw [noAdjacentSame_cons_cons] at h
    simp only [Bool.and_eq_true] at h
    exact h.2

theorem noAdjacentSame_retype (x x' : CigarElement) (l : List CigarElement)
    (ht : x'.type = x.type) (h : noAdjacentSame (x :: l) = true) :
    noAdjacentSame (x' :: l) = true := by
  cases l with
  | nil => rfl
  | cons y l' =>
    rw [noAdjacentSame_cons_cons] at h ⊢
    rw [ht]
    exact h

theorem noAdjacentSame_glue (x : CigarElement) (b : Cigar) (hb : noAdjacentSame b = true) :
    noAdjacentSame (glue x b) = true := by
  cases b with
  | nil => rfl
  | cons e rest =>
    by_cases h : x.type = e.type
    · have hx' : noAdjacentSame ((⟨x.length + e.length, x.type⟩ : CigarElement) :: rest) = true :=
        noAdjacentSame_retype e _ rest h hb
      cases rest with
      | nil =>
        rw [glue_same x e [] h]
        rfl
      | cons r rest' =>
        have hr : ¬ e.type = r.type := by
          rw [noAdjacentSame_cons_cons] at hb
          simp only [Bool.and_eq_true, bne_iff_ne, ne_eq] at hb
          exact hb.1
        have hxr : ¬ (⟨x.length + e.length, x.type⟩ : CigarElement).type = r.type := by
          show ¬ x.type = r.type
          rw [h]
          exact hr
        rw [glue_same x e _ h, glue_of_head_ne _ r rest' hxr]
        exact hx'
    · rw [glue_of_head_ne x e rest h, noAdjacentSame_cons_cons]
      simp [h, hb]

theorem noAdjacentSame_merge (a b : Cigar) (ha : noAdjacentSame a = true)
    (hb : noAdjacentSame b = true) : noAdjacentSame (merge a b) = true := by
  induction a with
  | nil => simpa [merge] using hb
  | cons x s ih =>
    cases s with
    | nil => simpa [merge] using noAdjacentSame_glue x b hb
    | cons y s' =>
      have hs := ih (noAdjacentSame_tail x _ ha)
      obtain ⟨z, l, hm, hz⟩ := merge_head y s' b
      rw [merge_cons x (y :: s') (by simp), hm, noAdjacentSame_cons_cons, hz]
      rw [hm] at hs
      rw [noAdjacentSame_cons_cons] at ha
      simp only [Bool.and_eq_true] at ha ⊢
      exact ⟨ha.1, hs⟩

theorem noAdjacentSame_append (a b : Cigar) (ha : noAdjacentSame a = true)
    (hb : noAdjacentSame b = true) : noAdjacentSame (append a b) = true := by
  rw [append_eq_merge]
  split
  · exact ha
  · exact noAdjacentSame_merge a b ha hb

theorem noAdjacentSame_foldl (cs : List Cigar) (init : Cigar) (hi : noAdjacentSame init = true)
    (hcs : ∀ c ∈ cs, noAdjacentSame c = true) :
    noAdjacentSame (cs.foldl append init) = true := by
  induction cs generalizing init with
  | nil => simpa using hi
  | cons c rest ih =>
    rw [List.foldl_cons]
    exact ih _ (noAdjacentSame_append init c hi (hcs c (by simp)))
      (fun c hc => hcs c (by simp [hc]))

/-! ## Lemmas on the length metrics -/

theorem lengthWhere_nil (p : Char → Bool) : lengthWhere p [] = 0 := rfl

theorem lengthWhere_cons (p : Char → Bool) (e : CigarElement) (c : Cigar) :
    lengthWhere p (e :: c) =
      (if p e.type = true then e.length.val else 0) + lengthWhere p c := by
  by_cases h : p e.type = true
  · simp [lengthWhere, totalLength, List.filter_cons, h]
  · simp [lengthWhere, totalLength, List.filter_cons, h]

theorem foldl_add_where (p : Char → Bool) (c : Cigar) (acc : Int32) :
    c.foldl (fun len e => if p e.type = true then len + e.length else len) acc =
      Int32.ofInt (acc.val + lengthWhere p c) := by
  induction c generalizing acc with
  | nil => rw [List.foldl_nil, lengthWhere_nil, Int.add_zero, Int32.ofInt_val_self]
  | cons e rest ih =>
    rw [List.foldl_cons, ih, lengthWhere_cons, Int32.ofInt_eq_iff]
    by_cases h : p e.type = true
    · simp only [h, if_true]
      rw [Int32.add_val, wrap32_add_left, Int.add_assoc]
    · simp [h]

theorem refLen_eq_lengthWhere (c : Cigar) :
    refLen c = Int32.ofInt (lengthWhere (fun t => t == 'M' || t == 'D' || t == 'X') c) := by
  have h := foldl_add_where (fun t => t == 'M' || t == 'D' || t == 'X') c 0
  rw [Int32.zero_val, Int.zero_add] at h
  rw [← h]
  unfold refLen
  congr 1
  funext len e
  simp [or_assoc]

theorem readLen_eq_lengthWhere (c : Cigar) :
    readLen c =
      Int32.ofInt (lengthWhere (fun t => t == 'M' || t == 'I' || t == 'X' || t == 'S') c) := by
  have h := foldl_add_where (fun t => t == 'M' || t == 'I' || t == 'X' || t == 'S') c 0
  rw [Int32.zero_val, Int.zero_add] at h
  rw [← h]
  unfold readLen
  congr 1
  funext len e
  simp [or_assoc]

theorem lengthWhere_glue (p : Char → Bool) (x : CigarElement) (b : Cigar) :
    wrap32 (lengthWhere p (glue x b)) =
      wrap32 ((if p x.type = true then x.length.val else 0) + lengthWhere p b) := by
  induction b generalizing x with
  | nil => simp [glue, lengthWhere_cons, lengthWhere_nil]
  | cons e rest ih =>
    by_cases h : x.type = e.type
    · rw [glue_same x e rest h, ih, lengthWhere_cons p e rest, ← h]
      by_cases hp : p x.type = true
      · simp only [hp, if_true]
        rw [Int32.add_val, wrap32_add_left, Int.add_assoc]
      · simp [hp]
    · rw [glue_of_head_ne x e rest h, lengthWhere_cons p x]

theorem lengthWhere_merge (p : Char → Bool) (a b : Cigar) :
    wrap32 (lengthWhere p (merge a b)) = wrap32 (lengthWhere p a + lengthWhere p b) := by
  induction a with
  | nil => simp [merge, lengthWhere_nil]
  | cons x s ih =>
    cases s with
    | nil =>
      rw [show merge [x] b = glue x b from by simp [merge], lengthWhere_glue, lengthWhere_cons,
        lengthWhere_nil, Int.add_zero]
    | cons y s' =>
      rw [merge_cons x (y :: s') (by simp), lengthWhere_cons, lengthWhere_cons p x,
        Int.add_assoc]
      exact wrap32_add_congr _ _ _ _ rfl ih

theorem lengthWhere_append (p : Char → Bool) (a b : Cigar) :
    wrap32 (lengthWhere p (append a b)) = wrap32 (lengthWhere p a + lengthWhere p b) := by
  rw [append_eq_merge]
  cases hb : isSentinel b with
  | false => simpa using lengthWhere_merge p a b
  | true =>
    obtain ⟨t, rfl⟩ := (isSentinel_iff b).1 hb
    rw [lengthWhere_cons, lengthWhere_nil, Int32.zero_val]
    simp

theorem lengthWhere_foldl_append (p : Char → Bool) (cs : List Cigar) (init : Cigar) :
    wrap32 (lengthWhere p (cs.foldl append init)) =
      wrap32 (lengthWhere p init + (cs.map (lengthWhere p)).sum) := by
  induction cs generalizing init with
  | nil => simp
  | cons c rest ih =>
    rw [List.foldl_cons, ih, List.map_cons, List.sum_cons, ← Int.add_assoc]
    exact wrap32_add_congr _ _ _ _ (lengthWhere_append p init c) rfl

theorem wrap32_sum_map_congr (f g : Cigar → Int) (cs : List Cigar)
    (h : ∀ c, wrap32 (f c) = wrap32 (g c)) :
    wrap32 (cs.map f).sum = wrap32 (cs.map g).sum := by
  induction cs with
  | nil => rfl
  | cons c rest ih =>
    rw [List.map_cons, List.map_cons, List.sum_cons, List.sum_cons]
    exact wrap32_add_congr _ _ _ _ (h c) ih

theorem lengthWhere_bounds (p : Char → Bool) (c : Cigar) (h : ∀ e ∈ c, 0 ≤ e.length) :
    0 ≤ lengthWhere p c ∧ lengthWhere p c ≤ totalLength c := by
  induction c with
  | nil => simp [lengthWhere, totalLength]
  | cons e rest ih =>
    have he := (Int32.nonneg_iff _).1 (h e (by simp))
    obtain ⟨h1, h2⟩ := ih (fun e he => h e (by simp [he]))
    rw [lengthWhere_cons, totalLength_cons]
    constructor <;> split <;> omega

/-! ## Lemmas on decimal text -/

theorem digitChar_spec :
    ∀ m, m < 10 → isdigit (Nat.digitChar m) = true ∧ (Nat.digitChar m).toNat - '0'.toNat = m := by
  decide

theorem atoiDigits_append_digit (acc : Nat) (l : List Char) (d : Char)
    (hl : ∀ c ∈ l, isdigit c = true) (hd : isdigit d = true) :
    atoiDigits acc (l ++ [d]) = 10 * atoiDigits acc l + (d.toNat - '0'.toNat) := by
  induction l generalizing acc with
  | nil => simp [atoiDigits, hd]
  | cons c rest ih =>
    have hc : isdigit c = true := hl c (by simp)
    have hr : ∀ c ∈ rest, isdigit c = true := fun c hc => hl c (by simp [hc])
    simp [atoiDigits, hc, ih _ hr]

theorem toDigitsCore_spec (fuel n : Nat) (ds : List Char) (h : n < fuel) :
    ∃ l, Nat.toDigitsCore 10 fuel n ds = l ++ ds ∧ l ≠ [] ∧
      (∀ c ∈ l, isdigit c = true) ∧ atoiDigits 0 l = n := by
  induction fuel generalizing n ds with
  | zero => omega
  | succ fuel ih =>
    have hd := digitChar_spec (n % 10) (Nat.mod_lt _ (by decide))
    by_cases h0 : n / 10 = 0
    · refine ⟨[Nat.digitChar (n % 10)], ?_, by simp, ?_, ?_⟩
      · simp [Nat.toDigitsCore, h0]
      · simpa using hd.1
      · simp only [atoiDigits, hd.1, if_true, hd.2]
        omega
    · obtain ⟨l, h1, _, h3, h4⟩ := ih (n / 10) (Nat.digitChar (n % 10) :: ds) (by omega)
      refine ⟨l ++ [Nat.digitChar (n % 10)], ?_, by simp, ?_, ?_⟩
      · simp [Nat.toDigitsCore, h0, h1]
      · intro c hc
        rcases List.mem_append.1 hc with hc | hc
        · exact h3 c hc
        · simpa [List.mem_singleton.1 hc] using hd.1
      · rw [atoiDigits_append_digit 0 l _ h3 hd.1, h4, hd.2]
        omega

theorem isdigit_not_space_sign (c : Char) (h : isdigit c = true) :
    isspace c = false ∧ c ≠ '-' ∧ c ≠ '+' := by
  refine ⟨?_, ?_, ?_⟩
  · cases hs : isspace c with
    | false => rfl
    | true =>
      simp only [isspace, Bool.or_eq_true, decide_eq_true_eq] at hs
      rcases hs with ((((hs | hs) | hs) | hs) | hs) | hs <;> subst hs <;> revert h <;> decide
  · rintro rfl
    revert h
    decide
  · rintro rfl
    revert h
    decide

theorem strtol_digits (d : Char) (l : List Char) (hd : isdigit d = true) :
    strtol (d :: l) = min (atoiDigits 0 (d :: l) : Int) 9223372036854775807 := by
  obtain ⟨h1, h2, h3⟩ := isdigit_not_space_sign d hd
  simp [strtol, h1, h2, h3]

theorem atoiDigits_eq_foldl (acc : Nat) (d : List Char) (hd : ∀ c ∈ d, isdigit c = true) :
    atoiDigits acc d = d.foldl (fun a c => 10 * a + (c.toNat - '0'.toNat)) acc := by
  induction d generalizing acc with
  | nil => simp [atoiDigits]
  | cons c rest ih =>
    have hc : isdigit c = true := hd c (by simp)
    have hr : ∀ c ∈ rest, isdigit c = true := fun c hc => hd c (by simp [hc])
    simp [atoiDigits, hc, ih _ hr]

/-- On a digit string `atoi` is the decimal value, clamped to `long` and converted
to `int`. -/
theorem atoi_eq_decimalValue (d : List Char) (hd : ∀ c ∈ d, isdigit c = true) :
    atoi d = Int32.ofInt (min (decimalValue d : Int) 9223372036854775807) := by
  cases d with
  | nil => rfl
  | cons c rest =>
    unfold atoi
    rw [strtol_digits c rest (hd c (by simp)), atoiDigits_eq_foldl 0 _ hd]
    rfl

theorem atoi_of_small (d : List Char) (hd : ∀ c ∈ d, isdigit c = true)
    (hv : decimalValue d < 2147483648) :
    atoi d = Int32.ofInt (decimalValue d) ∧ (atoi d).val = decimalValue d := by
  have hmin : min (decimalValue d : Int) 9223372036854775807 = decimalValue d := by omega
  rw [atoi_eq_decimalValue d hd, hmin, Int32.ofInt_val]
  exact ⟨rfl, wrap32_of_fits _ ⟨by omega, by omega⟩⟩

theorem writeInt_spec (n : Int32) (h : 0 ≤ n) :
    ∃ d l, writeInt n = d :: l ∧ isdigit d = true ∧ (∀ c ∈ l, isdigit c = true) ∧
      atoi (d :: l) = n := by
  have hn : 0 ≤ n.val := (Int32.nonneg_iff n).1 h
  have hlt : n.val < 2147483648 := n.inRange.2
  obtain ⟨l, h1, h2, h3, h4⟩ := toDigitsCore_spec (n.val.toNat + 1) n.val.toNat [] (by omega)
  obtain ⟨d, l', rfl⟩ := List.exists_cons_of_ne_nil h2
  refine ⟨d, l', ?_, h3 d (by simp), fun c hc => h3 c (by simp [hc]), ?_⟩
  · have : ¬ n.val < 0 := by omega
    simpa [writeInt, this, Nat.toDigits] using h1
  · unfold atoi
    rw [strtol_digits d l' (h3 d (by simp)), h4]
    apply Int32.ext
    rw [Int32.ofInt_val]
    have hmin : min ((n.val.toNat : Nat) : Int) 9223372036854775807 = n.val := by omega
    rw [hmin]
    exact n.wrap32_val

/-! ## Lemmas on the text constructor -/

theorem writeCigar_eq (o : List Char) (c : Cigar) : writeCigar o c = o ++ writeCigar [] c := by
  induction c generalizing o with
  | nil => simp [writeCigar]
  | cons e rest ih =>
    have h1 := ih (writeElement o e)
    have h2 := ih (writeElement [] e)
    simp only [writeCigar, List.foldl_cons] at h1 h2 ⊢
    rw [h1, h2]
    simp [writeElement]

theorem str_cons (e : CigarElement) (c : Cigar) :
    str (e :: c) = writeInt e.length ++ e.type :: str c := by
  have h := writeCigar_eq (writeElement [] e) c
  have he : writeElement [] e = writeInt e.length ++ [e.type] := by simp [writeElement]
  simp only [str, writeCigar, List.foldl_cons] at h ⊢
  rw [h, he]
  simp

theorem parse_digits (st : ParseState) (l : List Char) (hl : ∀ c ∈ l, isdigit c = true)
    (ht : st.type = []) :
    l.foldl parseStep st = { st with number := st.number ++ l } := by
  induction l generalizing st with
  | nil => simp
  | cons c rest ih =>
    have hc : isdigit c = true := hl c (by simp)
    have hr : ∀ c ∈ rest, isdigit c = true := fun c hc => hl c (by simp [hc])
    have hstep : parseStep st c = { st with number := st.number ++ [c] } := by
      simp [parseStep, hc, ht]
    rw [List.foldl_cons, hstep, ih _ hr (by simpa using ht)]
    simp

/-- Scanning the text of `seq` from a state that holds the pending pair `(n, t)`. -/
theorem parse_pending (seq : Cigar) (out : Cigar) (d : Char) (l : List Char) (t : Char)
    (hd : isdigit d = true) (ht : isdigit t = false)
    (hseq : ∀ e ∈ seq, 0 ≤ e.length ∧ isdigit e.type = false) :
    parseFinish ((str seq).foldl parseStep ⟨d :: l, [t], out⟩) =
      out ++ ⟨atoi (d :: l), t⟩ :: seq := by
  induction seq generalizing out d l t with
  | nil => simp [str, writeCigar, parseFinish, push_back]
  | cons e rest ih =>
    obtain ⟨he, het⟩ := hseq e (by simp)
    obtain ⟨d', l', hw, hd', hl', hv⟩ := writeInt_spec e.length he
    have hr : ∀ e ∈ rest, 0 ≤ e.length ∧ isdigit e.type = false :=
      fun e he => hseq e (by simp [he])
    rw [str_cons, hw, List.cons_append, List.foldl_cons, List.foldl_append, List.foldl_cons]
    have h1 : parseStep ⟨d :: l, [t], out⟩ d' = ⟨[d'], [], out ++ [⟨atoi (d :: l), t⟩]⟩ := by
      simp [parseStep, hd', push_back]
    rw [h1, parse_digits _ l' hl' rfl]
    have h2 : parseStep ⟨[d'] ++ l', [], out ++ [⟨atoi (d :: l), t⟩]⟩ e.type =
        ⟨d' :: l', [e.type], out ++ [⟨atoi (d :: l), t⟩]⟩ := by
      simp [parseStep, het]
    rw [h2, ih _ d' l' e.type hd' het hr, hv]
    simp

/-- Parsing the rendered text gives the runs back, when every length is
non-negative and no operation is a digit. -/
theorem ofString_str (seq : Cigar)
    (hseq : ∀ e ∈ seq, 0 ≤ e.length ∧ isdigit e.type = false) :
    Cigar.ofString (str seq) = seq := by
  cases seq with
  | nil => simp [Cigar.ofString, str, writeCigar, parseFinish]
  | cons e rest =>
    obtain ⟨he, het⟩ := hseq e (by simp)
    obtain ⟨d, l, hw, hd, hl, hv⟩ := writeInt_spec e.length he
    have hr : ∀ e ∈ rest, 0 ≤ e.length ∧ isdigit e.type = false :=
      fun e he => hseq e (by simp [he])
    unfold Cigar.ofString
    rw [str_cons, hw, List.foldl_append, List.foldl_cons]
    rw [parse_digits _ (d :: l) (by simpa using ⟨hd, hl⟩) rfl]
    have h2 : parseStep ⟨[] ++ d :: l, [], []⟩ e.type = ⟨d :: l, [e.type], []⟩ := by
      simp [parseStep, het]
    rw [h2, parse_pending rest [] d l e.type hd het hr, hv]
    simp

/-! ## Lemmas on the construction from variant alleles -/

theorem toUnsigned_ofInt (n : Fin 4294967296) : toUnsigned (Int32.ofInt n.val) = n := by
  apply Fin.ext
  have := n.isLt
  simp only [toUnsigned, Int32.ofInt_val, wrap32]
  omega

theorem ofCigarData_foldl (ops : List CigarOp) (init : Cigar) :
    ops.foldl (fun self o => push_back self ⟨Int32.ofInt o.Length.val, o.opType⟩) init =
      init ++ ops.map (fun o => ⟨Int32.ofInt o.Length.val, o.opType⟩) := by
  induction ops generalizing init with
  | nil => simp
  | cons o rest ih =>
    rw [List.foldl_cons, ih]
    simp [push_back]

theorem toCigarData_foldl (c : Cigar) (init : List CigarOp) :
    c.foldl (fun data e => data ++ [⟨e.type, toUnsigned e.length⟩]) init =
      init ++ c.map (fun e => ⟨e.type, toUnsigned e.length⟩) := by
  induction c generalizing init with
  | nil => simp
  | cons e rest ih => simp [ih]

theorem ofInt_length_small (n : Fin 4294967296) (h : n.val < 2147483648) :
    (Int32.ofInt n.val).val = n.val := by
  rw [Int32.ofInt_val]
  exact wrap32_of_fits _ ⟨by omega, by omega⟩

/-! ## Lemmas on the parse of token texts -/

theorem wellFormedToken_iff (tk : Token) :
    wellFormedToken tk = true ↔
      tk.1 ≠ [] ∧ (∀ c ∈ tk.1, isdigit c = true) ∧ isdigit tk.2 = false := by
  simp [wellFormedToken, and_assoc]

theorem parse_nondigits (st : ParseState) (l : List Char) (hl : ∀ c ∈ l, isdigit c = false) :
    l.foldl parseStep st = { st with type := st.type ++ l } := by
  induction l generalizing st with
  | nil => simp
  | cons c rest ih =>
    have hc : isdigit c = false := hl c (by simp)
    have hr : ∀ c ∈ rest, isdigit c = false := fun c hc => hl c (by simp [hc])
    have hstep : parseStep st c = { st with type := st.type ++ [c] } := by
      simp [parseStep, hc]
    rw [List.foldl_cons, hstep, ih _ hr]
    simp

/-- Scanning one well-formed token from a state whose `type` buffer is non-empty
pushes the pending pair and leaves the token pending. -/
theorem parse_token_pending (n : List Char) (t0 : Char) (ts : List Char) (out : Cigar)
    (tk : Token) (htk : wellFormedToken tk = true) (rest : List Char) :
    (tk.1 ++ tk.2 :: rest).foldl parseStep ⟨n, t0 :: ts, out⟩ =
      rest.foldl parseStep ⟨tk.1, [tk.2], out ++ [⟨atoi n, t0⟩]⟩ := by
  obtain ⟨hne, hd, ht⟩ := (wellFormedToken_iff tk).1 htk
  obtain ⟨d0, ds, hds⟩ := List.exists_cons_of_ne_nil hne
  have hd0 : isdigit d0 = true := hd d0 (by simp [hds])
  have hdr : ∀ c ∈ ds, isdigit c = true := fun c hc => hd c (by simp [hds, hc])
  rw [hds, List.cons_append, List.foldl_cons, List.foldl_append, List.foldl_cons]
  have h1 : parseStep ⟨n, t0 :: ts, out⟩ d0 = ⟨[d0], [], out ++ [⟨atoi n, t0⟩]⟩ := by
    simp [parseStep, hd0, push_back]
  rw [h1, parse_digits _ ds hdr rfl]
  have h2 : parseStep ⟨[d0] ++ ds, [], out ++ [⟨atoi n, t0⟩]⟩ tk.2 =
      ⟨d0 :: ds, [tk.2], out ++ [⟨atoi n, t0⟩]⟩ := by
    simp [parseStep, ht]
  rw [h2]

theorem tokenRuns_cons (tk : Token) (toks : List Token) :
    tokenRuns (tk :: toks) = ⟨atoi tk.1, tk.2⟩ :: tokenRuns toks := rfl

/-- Result of the parse when a token text is scanned from a state whose `type`
buffer is non-empty. -/
theorem parse_tokens_pending (toks : List Token) (n : List Char) (t0 : Char) (ts : List Char)
    (out : Cigar) (h : ∀ tk ∈ toks, wellFormedToken tk = true) :
    parseFinish ((tokensText toks).foldl parseStep ⟨n, t0 :: ts, out⟩) =
      if n = [] ∧ toks = [] then out else out ++ ⟨atoi n, t0⟩ :: tokenRuns toks := by
  induction toks generalizing n t0 ts out with
  | nil =>
    by_cases hn : n = []
    · simp [tokensText, parseFinish, hn]
    · simp [tokensText, parseFinish, hn, push_back, tokenRuns]
  | cons tk rest ih =>
    have htk := h tk (by simp)
    have hr : ∀ tk ∈ rest, wellFormedToken tk = true := fun tk htk => h tk (by simp [htk])
    obtain ⟨hne, _, _⟩ := (wellFormedToken_iff tk).1 htk
    rw [tokensText, parse_token_pending n t0 ts out tk htk, ih tk.1 tk.2 [] _ hr]
    simp [hne, tokenRuns_cons]

/-- Result of the parse when a token text followed by trailing digits is scanned
from a state whose `type` buffer is non-empty. -/
theorem parse_tokens_trailing (toks : List Token) (n : List Char) (t0 : Char) (ts : List Char)
    (out : Cigar) (h : ∀ tk ∈ toks, wellFormedToken tk = true)
    (d : List Char) (hne : d ≠ []) (hd : ∀ c ∈ d, isdigit c = true) :
    parseFinish ((tokensText toks ++ d).foldl parseStep ⟨n, t0 :: ts, out⟩) =
      out ++ ⟨atoi n, t0⟩ :: tokenRuns toks := by
  induction toks generalizing n t0 ts out with
  | nil =>
    obtain ⟨d0, ds, rfl⟩ := List.exists_cons_of_ne_nil hne
    have hd0 : isdigit d0 = true := hd d0 (by simp)
    have hdr : ∀ c ∈ ds, isdigit c = true := fun c hc => hd c (by simp [hc])
    have h1 : parseStep ⟨n, t0 :: ts, out⟩ d0 = ⟨[d0], [], out ++ [⟨atoi n, t0⟩]⟩ := by
      simp [parseStep, hd0, push_back]
    rw [tokensText, List.nil_append, List.foldl_cons, h1, parse_digits _ ds hdr rfl]
    simp [parseFinish, tokenRuns]
  | cons tk rest ih =>
    have htk := h tk (by simp)
    have hr : ∀ tk ∈ rest, wellFormedToken tk = true := fun tk htk => h tk (by simp [htk])
    have happ : tokensText (tk :: rest) ++ d = tk.1 ++ tk.2 :: (tokensText rest ++ d) := by
      simp [tokensText]
    rw [happ, parse_token_pending n t0 ts out tk htk, ih tk.1 tk.2 [] _ hr]
    simp [tokenRuns_cons]

/-- The parse of a well-formed text is one run per token. -/
theorem ofString_tokens (toks : List Token) (h : ∀ tk ∈ toks, wellFormedToken tk = true) :
    Cigar.ofString (tokensText toks) = tokenRuns toks := by
  cases toks with
  | nil => simp [Cigar.ofString, tokensText, parseFinish, tokenRuns]
  | cons tk rest =>
    have htk := h tk (by simp)
    have hr : ∀ tk ∈ rest, wellFormedToken tk = true := fun tk htk => h tk (by simp [htk])
    obtain ⟨hne, hd, ht⟩ := (wellFormedToken_iff tk).1 htk
    unfold Cigar.ofString
    rw [tokensText, List.foldl_append, List.foldl_cons, parse_digits _ tk.1 hd rfl]
    have h2 : parseStep ⟨[] ++ tk.1, [], []⟩ tk.2 = ⟨tk.1, [tk.2], []⟩ := by
      simp [parseStep, ht]
    rw [h2, parse_tokens_pending rest tk.1 tk.2 [] [] hr]
    simp [hne, tokenRuns_cons]

/-- Digits after a well-formed text add no run. -/
theorem ofString_tokens_trailing (toks : List Token)
    (h : ∀ tk ∈ toks, wellFormedToken tk = true)
    (d : List Char) (hne : d ≠ []) (hd : ∀ c ∈ d, isdigit c = true) :
    Cigar.ofString (tokensText toks ++ d) = tokenRuns toks := by
  cases toks with
  | nil =>
    unfold Cigar.ofString
    rw [tokensText, List.nil_append, parse_digits _ d hd rfl]
    simp [parseFinish, tokenRuns]
  | cons tk rest =>
    have htk := h tk (by simp)
    have hr : ∀ tk ∈ rest, wellFormedToken tk = true := fun tk htk => h tk (by simp [htk])
    obtain ⟨_, hdk, ht⟩ := (wellFormedToken_iff tk).1 htk
    have happ : tokensText (tk :: rest) ++ d = tk.1 ++ tk.2 :: (tokensText rest ++ d) := by
      simp [tokensText]
    unfold Cigar.ofString
    rw [happ, List.foldl_append, List.foldl_cons, parse_digits _ tk.1 hdk rfl]
    have h2 : parseStep ⟨[] ++ tk.1, [], []⟩ tk.2 = ⟨tk.1, [tk.2], []⟩ := by
      simp [parseStep, ht]
    rw [h2, parse_tokens_trailing rest tk.1 tk.2 [] [] hr d hne hd]
    simp [tokenRuns_cons]

/-- A non-digit before a non-empty well-formed text adds the run `(0, c)` in front. -/
theorem ofString_leading_nondigit (c : Char) (hc : isdigit c = false) (toks : List Token)
    (h : ∀ tk ∈ toks, wellFormedToken tk = true) :
    Cigar.ofString (c :: tokensText toks) =
      if toks = [] then [] else ⟨0, c⟩ :: tokenRuns toks := by
  unfold Cigar.ofString
  have h1 : parseStep ⟨[], [], []⟩ c = ⟨[], [c], []⟩ := by simp [parseStep, hc]
  have h0 : atoi [] = 0 := by decide
  rw [List.foldl_cons, h1, parse_tokens_pending toks [] c [] [] h, h0]
  simp

/-- A digit string followed by several non-digits and a well-formed text: the
first run takes the first of the non-digits. -/
theorem ofString_multichar (d : List Char) (t0 : Char) (ts : List Char) (toks : List Token)
    (hne : d ≠ []) (hd : ∀ c ∈ d, isdigit c = true)
    (ht : ∀ c ∈ t0 :: ts, isdigit c = false)
    (h : ∀ tk ∈ toks, wellFormedToken tk = true) :
    Cigar.ofString (d ++ (t0 :: ts) ++ tokensText toks) =
      ⟨atoi d, t0⟩ :: tokenRuns toks := by
  unfold Cigar.ofString
  rw [List.foldl_append, List.foldl_append, parse_digits _ d hd rfl,
    parse_nondigits _ (t0 :: ts) ht]
  have h2 : ({ number := [] ++ d, type := [] ++ t0 :: ts, out := [] } : ParseState) =
      ⟨d, t0 :: ts, []⟩ := by simp
  simp only [] at h2 ⊢
  rw [h2, parse_tokens_pending toks d t0 ts [] h]
  simp [hne]

/-! ## Lemmas on the metrics of `append` and `join` -/

theorem ofInt_lengthWhere_append (p : Char → Bool) (a b : Cigar) :
    (Int32.ofInt (lengthWhere p (append a b))).val =
      wrap32 ((Int32.ofInt (lengthWhere p a)).val + (Int32.ofInt (lengthWhere p b)).val) := by
  rw [Int32.ofInt_val, Int32.ofInt_val, Int32.ofInt_val, wrap32_add_left, wrap32_add_right]
  exact lengthWhere_append p a b

theorem ofInt_lengthWhere_join (p : Char → Bool) (cs : List Cigar) :
    (Int32.ofInt (lengthWhere p (join cs))).val =
      wrap32 (cs.map (fun c => (Int32.ofInt (lengthWhere p c)).val)).sum := by
  rw [Int32.ofInt_val, join, lengthWhere_foldl_append, lengthWhere_nil, Int.zero_add]
  exact wrap32_sum_map_congr _ _ cs (fun c => by rw [Int32.ofInt_val, wrap32_wrap32])

/-! ## Claims -/

/-- C1 as stated fails: `[(2147483647,M)]` append `[(1,M)]` is `[(-2147483648,M)]`,
because `back().length += i->length` is an `int` addition, while the length of
the last run increased by the sum is 2147483648. -/
theorem append_merges_overflow_counterexample :
    ([⟨2147483647, 'M'⟩] : Cigar) ≠ [] ∧ (¬ ∃ t, ([⟨1, 'M'⟩] : Cigar) = [⟨0, t⟩]) ∧
    append [⟨2147483647, 'M'⟩] [⟨1, 'M'⟩] = [⟨Int32.ofInt (-2147483648), 'M'⟩] ∧
    (Int32.ofInt (-2147483648)).val = -2147483648 ∧
    (2147483647 : Int32).val + totalLength [⟨1, 'M'⟩] = 2147483648 := by
  refine ⟨by decide, not_single_zero _ (by decide), by decide, by decide, by decide⟩

/-- C1, amended: for a non-empty `self` and an `other` that is not a single
zero-length run, such that the length of the last run of `self` plus the total
length of the longest leading block of `other` whose runs have the operation of
that last run lies in the range of `int`, `append self other` is `self` with the
length of its last run increased by that total, followed by the remaining runs
of `other` in order. -/
theorem append_merges_leading_runs (self other : Cigar) (hs : self ≠ [])
    (ho : ¬ ∃ t, other = [⟨0, t⟩])
    (hfit : fitsInt ((self.getLast hs).length.val +
      totalLength (other.takeWhile (fun e => e.type == (self.getLast hs).type)))) :
    append self other =
      self.dropLast ++
        [⟨⟨(self.getLast hs).length.val +
              totalLength (other.takeWhile (fun e => e.type == (self.getLast hs).type)), hfit⟩,
          (self.getLast hs).type⟩] ++
        other.dropWhile (fun e => e.type == (self.getLast hs).type) := by
  have hn : Int32.ofInt ((self.getLast hs).length.val +
      totalLength (other.takeWhile (fun e => e.type == (self.getLast hs).type))) =
      ⟨(self.getLast hs).length.val +
        totalLength (other.takeWhile (fun e => e.type == (self.getLast hs).type)), hfit⟩ :=
    Int32.ext (wrap32_of_fits _ hfit)
  rw [append_eq_merge, isSentinel_eq_false other ho, merge_eq self hs, glue_eq, hn]
  simp

/-- C1 at the scenario of the specification: `[(5,M)]` append `[(3,M),(2,I)]`
is `[(8,M),(2,I)]`. -/
theorem append_merges_leading_runs_witness :
    ([⟨5, 'M'⟩] : Cigar) ≠ [] ∧ (¬ ∃ t, ([⟨3, 'M'⟩, ⟨2, 'I'⟩] : Cigar) = [⟨0, t⟩]) ∧
      fitsInt ((5 : Int32).val + totalLength [⟨3, 'M'⟩]) ∧
      append [⟨5, 'M'⟩] [⟨3, 'M'⟩, ⟨2, 'I'⟩] = [⟨8, 'M'⟩, ⟨2, 'I'⟩] := by
  refine ⟨by decide, by simp, by decide, ?_⟩
  rw [append_merges_leading_runs [⟨5, 'M'⟩] [⟨3, 'M'⟩, ⟨2, 'I'⟩] (by decide) (by simp)
    (by decide)]
  decide

/-- C2 as stated fails: the single run `(1, '5')` has a non-negative length, a
one-character operation and no adjacent equal operations, its text is `15`,
and parsing that text gives the empty `Cigar`. -/
theorem roundtrip_digit_operation_counterexample :
    noAdjacentSame [⟨1, '5'⟩] = true ∧ (0 : Int) ≤ 1 ∧
      str [⟨1, '5'⟩] = ['1', '5'] ∧
      Cigar.ofString (str [⟨1, '5'⟩]) = [] ∧
      Cigar.ofString (str [⟨1, '5'⟩]) ≠ [⟨1, '5'⟩] := by
  decide

/-- C2, amended: for every sequence of runs with non-negative lengths and
operations that are not decimal digits, in which no two adjacent runs have the
same operation, parsing the rendered text returns exactly that sequence. -/
theorem roundtrip_parse_render (seq : Cigar)
    (hlen : ∀ e ∈ seq, 0 ≤ e.length) (hop : ∀ e ∈ seq, isdigit e.type = false)
    (_hadj : noAdjacentSame seq = true) :
    Cigar.ofString (str seq) = seq :=
  ofString_str seq (fun e he => ⟨hlen e he, hop e he⟩)

/-- C2 at the scenario of the specification: the runs
`[(10,M),(2,I),(3,D),(5,M)]` and the text `10M2I3D5M`. -/
theorem roundtrip_parse_render_witness :
    (∀ e ∈ ([⟨10, 'M'⟩, ⟨2, 'I'⟩, ⟨3, 'D'⟩, ⟨5, 'M'⟩] : Cigar), 0 ≤ e.length) ∧
    (∀ e ∈ ([⟨10, 'M'⟩, ⟨2, 'I'⟩, ⟨3, 'D'⟩, ⟨5, 'M'⟩] : Cigar), isdigit e.type = false) ∧
    noAdjacentSame [⟨10, 'M'⟩, ⟨2, 'I'⟩, ⟨3, 'D'⟩, ⟨5, 'M'⟩] = true ∧
    str [⟨10, 'M'⟩, ⟨2, 'I'⟩, ⟨3, 'D'⟩, ⟨5, 'M'⟩] = "10M2I3D5M".toList ∧
    Cigar.ofString (str [⟨10, 'M'⟩, ⟨2, 'I'⟩, ⟨3, 'D'⟩, ⟨5, 'M'⟩]) =
      [⟨10, 'M'⟩, ⟨2, 'I'⟩, ⟨3, 'D'⟩, ⟨5, 'M'⟩] :=
  ⟨by decide, by decide, by decide, by decide,
    roundtrip_parse_render _ (by decide) (by decide) (by decide)⟩

/-- C3 as stated fails: `[(2147483647,M),(1,M)]` has `refLen` and `readLen`
-2147483648, because the sums are accumulated in an `int`, while the sum of the
lengths of its `M` runs is 2147483648. -/
theorem refLen_readLen_overflow_counterexample :
    (refLen [⟨2147483647, 'M'⟩, ⟨1, 'M'⟩]).val = -2147483648 ∧
    (readLen [⟨2147483647, 'M'⟩, ⟨1, 'M'⟩]).val = -2147483648 ∧
    totalLength (([⟨2147483647, 'M'⟩, ⟨1, 'M'⟩] : Cigar).filter
      (fun e => e.type == 'M' || e.type == 'D' || e.type == 'X')) = 2147483648 ∧
    totalLength (([⟨2147483647, 'M'⟩, ⟨1, 'M'⟩] : Cigar).filter
      (fun e => e.type == 'M' || e.type == 'I' || e.type == 'X' || e.type == 'S')) =
        2147483648 := by
  refine ⟨by decide, by decide, by decide, by decide⟩

/-- C3, amended: `refLen` is the sum of the lengths of exactly the `M`, `D` and
`X` runs when that sum lies in the range of `int`, and `readLen` is the sum of
the lengths of exactly the `M`, `I`, `X` and `S` runs when that sum lies in the
range of `int`. -/
theorem refLen_readLen_sum (c : Cigar) :
    (fitsInt (totalLength
        (c.filter (fun e => e.type == 'M' || e.type == 'D' || e.type == 'X'))) →
      (refLen c).val =
        totalLength (c.filter (fun e => e.type == 'M' || e.type == 'D' || e.type == 'X'))) ∧
    (fitsInt (totalLength
        (c.filter (fun e => e.type == 'M' || e.type == 'I' || e.type == 'X' || e.type == 'S'))) →
      (readLen c).val =
        totalLength
          (c.filter (fun e => e.type == 'M' || e.type == 'I' || e.type == 'X' || e.type == 'S'))) := by
  constructor
  · intro hf
    rw [refLen_eq_lengthWhere, Int32.ofInt_val]
    exact wrap32_of_fits _ hf
  · intro hf
    rw [readLen_eq_lengthWhere, Int32.ofInt_val]
    exact wrap32_of_fits _ hf

/-- C3 at the scenario of the specification: `[(10,M),(2,I),(3,D),(5,M)]` has
`refLen` 18 and `readLen` 17. -/
theorem refLen_readLen_sum_witness :
    fitsInt (totalLength (([⟨10, 'M'⟩, ⟨2, 'I'⟩, ⟨3, 'D'⟩, ⟨5, 'M'⟩] : Cigar).filter
      (fun e => e.type == 'M' || e.type == 'D' || e.type == 'X'))) ∧
    fitsInt (totalLength (([⟨10, 'M'⟩, ⟨2, 'I'⟩, ⟨3, 'D'⟩, ⟨5, 'M'⟩] : Cigar).filter
      (fun e => e.type == 'M' || e.type == 'I' || e.type == 'X' || e.type == 'S'))) ∧
    (refLen [⟨10, 'M'⟩, ⟨2, 'I'⟩, ⟨3, 'D'⟩, ⟨5, 'M'⟩]).val = 18 ∧
    (readLen [⟨10, 'M'⟩, ⟨2, 'I'⟩, ⟨3, 'D'⟩, ⟨5, 'M'⟩]).val = 17 := by
  have hw := refLen_readLen_sum [⟨10, 'M'⟩, ⟨2, 'I'⟩, ⟨3, 'D'⟩, ⟨5, 'M'⟩]
  refine ⟨by decide, by decide, ?_, ?_⟩
  · rw [hw.1 (by decide)]; decide
  · rw [hw.2 (by decide)]; decide

/-- C4 as stated fails: with `a = [(1,M)]`, `b = [(0,I)]` and `c = [(1,M)]` the
zero-length `b` is dropped on the left, so the left grouping renders `2M`,
while the right grouping renders `1M0I1M`; and with `a = [(1,I)]`,
`b = [(2147483647,M)]` and `c = [(2147483647,M),(2,M)]` the `int` length of
`append b c` wraps to 0, so the left grouping renders `1I0M` and the right `1I`. -/
theorem append_assoc_text_counterexample :
    str (append (append [⟨1, 'M'⟩] [⟨0, 'I'⟩]) [⟨1, 'M'⟩]) = "2M".toList ∧
    str (append [⟨1, 'M'⟩] (append [⟨0, 'I'⟩] [⟨1, 'M'⟩])) = "1M0I1M".toList ∧
    str (append (append [⟨1, 'M'⟩] [⟨0, 'I'⟩]) [⟨1, 'M'⟩]) ≠
      str (append [⟨1, 'M'⟩] (append [⟨0, 'I'⟩] [⟨1, 'M'⟩])) ∧
    str (append (append [⟨1, 'I'⟩] [⟨2147483647, 'M'⟩]) [⟨2147483647, 'M'⟩, ⟨2, 'M'⟩]) =
      "1I0M".toList ∧
    str (append [⟨1, 'I'⟩] (append [⟨2147483647, 'M'⟩] [⟨2147483647, 'M'⟩, ⟨2, 'M'⟩])) =
      "1I".toList := by
  refine ⟨by decide, by decide, by decide, by decide, by decide⟩

/-- C4, amended: for all `a`, `b` and `c` such that neither `b` nor `append b c`
is a single zero-length run, the two groupings of `append` render the same
text. -/
theorem append_assoc_text (a b c : Cigar) (hb : ¬ ∃ t, b = [⟨0, t⟩])
    (hbc : ¬ ∃ t, append b c = [⟨0, t⟩]) :
    str (append (append a b) c) = str (append a (append b c)) := by
  rw [append_assoc_runs a b c (isSentinel_eq_false b hb) (isSentinel_eq_false _ hbc)]

/-- Instance of C4 at `a = [(4,S),(5,M)]`, `b = [(3,M)]`, `c = [(1,M),(2,I)]`:
`append b c` is `[(4,M),(2,I)]` and both groupings render `4S9M2I`. -/
theorem append_assoc_text_witness :
    (¬ ∃ t, ([⟨3, 'M'⟩] : Cigar) = [⟨0, t⟩]) ∧
    append [⟨3, 'M'⟩] [⟨1, 'M'⟩, ⟨2, 'I'⟩] = [⟨4, 'M'⟩, ⟨2, 'I'⟩] ∧
    (¬ ∃ t, append [⟨3, 'M'⟩] [⟨1, 'M'⟩, ⟨2, 'I'⟩] = [⟨0, t⟩]) ∧
    str (append (append [⟨4, 'S'⟩, ⟨5, 'M'⟩] [⟨3, 'M'⟩]) [⟨1, 'M'⟩, ⟨2, 'I'⟩]) = "4S9M2I".toList ∧
    str (append (append [⟨4, 'S'⟩, ⟨5, 'M'⟩] [⟨3, 'M'⟩]) [⟨1, 'M'⟩, ⟨2, 'I'⟩]) =
      str (append [⟨4, 'S'⟩, ⟨5, 'M'⟩] (append [⟨3, 'M'⟩] [⟨1, 'M'⟩, ⟨2, 'I'⟩])) :=
  ⟨not_single_zero _ (by decide), by decide, not_single_zero _ (by decide), by decide,
    append_assoc_text _ _ _ (not_single_zero _ (by decide)) (not_single_zero _ (by decide))⟩

/-- C5 as stated fails: appending the single zero-length run `(0,M)` to the
empty `Cigar` leaves it empty, which is not the appended value. -/
theorem append_empty_left_counterexample :
    append [] [⟨0, 'M'⟩] = [] ∧ append [] [⟨0, 'M'⟩] ≠ [⟨0, 'M'⟩] := by
  decide

/-- C5, amended: for every `x` that is not a single zero-length run, appending
`x` to the empty `Cigar` gives `x`. -/
theorem append_empty_left (x : Cigar) (hx : ¬ ∃ t, x = [⟨0, t⟩]) : append [] x = x := by
  have hsent : isSentinel x = false := by
    cases h : isSentinel x with
    | false => rfl
    | true => exact absurd ((isSentinel_iff x).1 h) hx
  simp [append, hsent]

/-- Instance of C5 at `x = [(3,M),(2,I)]`. -/
theorem append_empty_left_witness :
    (¬ ∃ t, ([⟨3, 'M'⟩, ⟨2, 'I'⟩] : Cigar) = [⟨0, t⟩]) ∧
    append [] [⟨3, 'M'⟩, ⟨2, 'I'⟩] = [⟨3, 'M'⟩, ⟨2, 'I'⟩] :=
  ⟨by simp, append_empty_left _ (by simp)⟩

/-- C6: appending the one-run `Cigar(0, op)` leaves every `x` unchanged, for
every operation `op`, also when `op` is the operation of the last run of `x`
and when `x` is empty. -/
theorem append_zero_length_sentinel (x : Cigar) (op : Char) :
    append x (Cigar.single 0 op) = x := by
  simp [append, isSentinel, Cigar.single, push_back, front]

/-- C7: when neither `a` nor `b` has two adjacent runs with the same operation,
`append a b` has none either; hence `join` of a list of such values has none. -/
theorem append_join_no_adjacent_same :
    (∀ a b : Cigar, noAdjacentSame a = true → noAdjacentSame b = true →
      noAdjacentSame (append a b) = true) ∧
    (∀ cs : List Cigar, (∀ c ∈ cs, noAdjacentSame c = true) →
      noAdjacentSame (join cs) = true) :=
  ⟨noAdjacentSame_append, fun cs hcs => noAdjacentSame_foldl cs [] rfl hcs⟩

/-- Instance of C7: `[(4,S),(5,M)]` append `[(3,M),(2,I)]` is `[(4,S),(8,M),(2,I)]`,
and joining `[(4,S),(5,M)]`, `[(3,M),(2,I)]`, `[(1,I),(7,M)]` gives
`[(4,S),(8,M),(3,I),(7,M)]`. -/
theorem append_join_no_adjacent_same_witness :
    noAdjacentSame [⟨4, 'S'⟩, ⟨5, 'M'⟩] = true ∧ noAdjacentSame [⟨3, 'M'⟩, ⟨2, 'I'⟩] = true ∧
    append [⟨4, 'S'⟩, ⟨5, 'M'⟩] [⟨3, 'M'⟩, ⟨2, 'I'⟩] = [⟨4, 'S'⟩, ⟨8, 'M'⟩, ⟨2, 'I'⟩] ∧
    noAdjacentSame (append [⟨4, 'S'⟩, ⟨5, 'M'⟩] [⟨3, 'M'⟩, ⟨2, 'I'⟩]) = true ∧
    (∀ c ∈ ([[⟨4, 'S'⟩, ⟨5, 'M'⟩], [⟨3, 'M'⟩, ⟨2, 'I'⟩], [⟨1, 'I'⟩, ⟨7, 'M'⟩]] : List Cigar),
      noAdjacentSame c = true) ∧
    join [[⟨4, 'S'⟩, ⟨5, 'M'⟩], [⟨3, 'M'⟩, ⟨2, 'I'⟩], [⟨1, 'I'⟩, ⟨7, 'M'⟩]] =
      [⟨4, 'S'⟩, ⟨8, 'M'⟩, ⟨3, 'I'⟩, ⟨7, 'M'⟩] ∧
    noAdjacentSame
      (join [[⟨4, 'S'⟩, ⟨5, 'M'⟩], [⟨3, 'M'⟩, ⟨2, 'I'⟩], [⟨1, 'I'⟩, ⟨7, 'M'⟩]]) = true :=
  ⟨by decide, by decide, by decide,
    append_join_no_adjacent_same.1 _ _ (by decide) (by decide),
    by decide, by decide,
    append_join_no_adjacent_same.2 _ (by decide)⟩

/-- C8, the code at the failing input: on the empty `Cigar` both `softClipStart`
and `softClipEnd` read an element of an empty vector, and no value 0 is returned. -/
theorem softClip_empty_undefined :
    front [] = none ∧ back [] = none ∧
    softClipStart [] = none ∧ softClipEnd [] = none ∧
    softClipStart [] ≠ some 0 ∧ softClipEnd [] ≠ some 0 := by
  decide

/-- C9: on a non-empty `Cigar`, `softClipStart` is the length of the first run
when its operation is `S` and 0 otherwise, and `softClipEnd` is the length of
the last run when its operation is `S` and 0 otherwise. -/
theorem softClip_first_last (c : Cigar) (h : c ≠ []) :
    softClipStart c = some (if (c.head h).type = 'S' then (c.head h).length else 0) ∧
    softClipEnd c = some (if (c.getLast h).type = 'S' then (c.getLast h).length else 0) := by
  constructor
  · simp [softClipStart, front, List.head?_eq_head h]
  · simp [softClipEnd, back, List.getLast?_eq_getLast _ h]

/-- C9 at the scenario of the specification: the parse of `5S10M5S` has
`softClipStart` 5 and `softClipEnd` 5, and the interior run `(7,S)` of
`[(1,M),(7,S),(2,M)]` contributes to neither. -/
theorem softClip_first_last_witness :
    Cigar.ofString "5S10M5S".toList ≠ [] ∧
    softClipStart (Cigar.ofString "5S10M5S".toList) = some 5 ∧
    softClipEnd (Cigar.ofString "5S10M5S".toList) = some 5 ∧
    softClipStart [⟨1, 'M'⟩, ⟨7, 'S'⟩, ⟨2, 'M'⟩] = some 0 ∧
    softClipEnd [⟨1, 'M'⟩, ⟨7, 'S'⟩, ⟨2, 'M'⟩] = some 0 := by
  have h1 := softClip_first_last (Cigar.ofString "5S10M5S".toList) (by decide)
  have h2 := softClip_first_last [⟨1, 'M'⟩, ⟨7, 'S'⟩, ⟨2, 'M'⟩] (by decide)
  refine ⟨by decide, ?_, ?_, ?_, ?_⟩
  · rw [h1.1]; decide
  · rw [h1.2]; decide
  · rw [h2.1]; decide
  · rw [h2.2]; decide

/-- C10: `isReference` holds exactly for the sequences of one run whose
operation is `M`; it fails on the empty `Cigar`, holds on `[(20,M)]`, and fails
on the parse of `5S10M5S`. -/
theorem isReference_iff :
    (∀ c : Cigar, isReference c = true ↔ ∃ n, c = [⟨n, 'M'⟩]) ∧
    isReference [] = false ∧
    isReference [⟨20, 'M'⟩] = true ∧
    isReference (Cigar.ofString "5S10M5S".toList) = false := by
  refine ⟨fun c => ⟨?_, ?_⟩, by decide, by decide, by decide⟩
  · intro h
    cases c with
    | nil => exact absurd h (by decide)
    | cons e rest =>
      cases rest with
      | nil =>
        have ht : e.type = 'M' := by simpa [isReference, front] using h
        exact ⟨e.length, by rw [← ht]⟩
      | cons e' rest' =>
        have hf : isReference (e :: e' :: rest') = false := by simp [isReference]
        rw [hf] at h
        exact absurd h (by decide)
  · rintro ⟨n, rfl⟩
    simp [isReference, front]

/-- C13 as stated fails: the one-entry list with length 2147483648 and code `M`
gives the run `(-2147483648, M)`, because the unsigned length is converted to
the `int` length of the run. -/
theorem ofCigarData_narrowing_counterexample :
    Cigar.ofCigarData [⟨'M', 2147483648⟩] = [⟨Int32.ofInt (-2147483648), 'M'⟩] ∧
    (Int32.ofInt (-2147483648)).val = -2147483648 ∧
    ((⟨'M', 2147483648⟩ : CigarOp).Length.val : Int) = 2147483648 ∧
    toCigarData (Cigar.ofCigarData [⟨'M', 2147483648⟩]) [] = [⟨'M', 2147483648⟩] := by
  refine ⟨by decide, by decide, by decide, by decide⟩

/-- C13, amended: `toCigarData` applied to the `Cigar` built from an external
operation list writes that list back, whatever the output list held before; the
`Cigar` built from the list has one run per entry with the code of that entry,
and with the length of that entry when every length of the list is below
`2 ^ 31`. -/
theorem cigarData_roundtrip (ops previous : List CigarOp) :
    toCigarData (Cigar.ofCigarData ops) previous = ops ∧
    (Cigar.ofCigarData ops).map (fun e => e.type) = ops.map (fun o => o.opType) ∧
    ((∀ o ∈ ops, o.Length.val < 2147483648) →
      (Cigar.ofCigarData ops).map (fun e => (e.length.val, e.type)) =
        ops.map (fun o => ((o.Length.val : Int), o.opType))) := by
  have h := ofCigarData_foldl ops []
  simp only [List.nil_append] at h
  have hc : Cigar.ofCigarData ops =
      ops.map (fun o => ⟨Int32.ofInt o.Length.val, o.opType⟩) := h
  refine ⟨?_, ?_, ?_⟩
  · unfold toCigarData
    rw [hc, toCigarData_foldl]
    simp only [clear, List.nil_append, List.map_map]
    have hid : ((fun e : CigarElement => (⟨e.type, toUnsigned e.length⟩ : CigarOp)) ∘
        fun o : CigarOp => (⟨Int32.ofInt o.Length.val, o.opType⟩ : CigarElement)) = id := by
      funext o
      simp [toUnsigned_ofInt]
    rw [hid, List.map_id]
  · rw [hc, List.map_map]
    rfl
  · intro hs
    rw [hc, List.map_map]
    apply List.map_congr_left
    intro o ho
    simp only [Function.comp, ofInt_length_small o.Length (hs o ho)]

/-- Instance of C13 at the list `[(M,5),(I,2),(M,7)]`, written over a list that
held `(X,1)`: the runs are `[(5,M),(2,I),(7,M)]`. -/
theorem cigarData_roundtrip_witness :
    (∀ o ∈ ([⟨'M', 5⟩, ⟨'I', 2⟩, ⟨'M', 7⟩] : List CigarOp), o.Length.val < 2147483648) ∧
    Cigar.ofCigarData [⟨'M', 5⟩, ⟨'I', 2⟩, ⟨'M', 7⟩] = [⟨5, 'M'⟩, ⟨2, 'I'⟩, ⟨7, 'M'⟩] ∧
    toCigarData (Cigar.ofCigarData [⟨'M', 5⟩, ⟨'I', 2⟩, ⟨'M', 7⟩]) [⟨'X', 1⟩] =
      [⟨'M', 5⟩, ⟨'I', 2⟩, ⟨'M', 7⟩] ∧
    (Cigar.ofCigarData [⟨'M', 5⟩, ⟨'I', 2⟩, ⟨'M', 7⟩]).map (fun e => (e.length.val, e.type)) =
      ([⟨'M', 5⟩, ⟨'I', 2⟩, ⟨'M', 7⟩] : List CigarOp).map
        (fun o => ((o.Length.val : Int), o.opType)) :=
  ⟨by decide, by decide,
    (cigarData_roundtrip [⟨'M', 5⟩, ⟨'I', 2⟩, ⟨'M', 7⟩] [⟨'X', 1⟩]).1,
    (cigarData_roundtrip [⟨'M', 5⟩, ⟨'I', 2⟩, ⟨'M', 7⟩] [⟨'X', 1⟩]).2.2 (by decide)⟩

/-- C14 as stated fails: the run lengths of `[(2147483647,M),(1,M)]` are
non-negative, yet `refLen` and `readLen` are -2147483648, which is negative. -/
theorem refLen_readLen_bounds_counterexample :
    (∀ e ∈ ([⟨2147483647, 'M'⟩, ⟨1, 'M'⟩] : Cigar), 0 ≤ e.length) ∧
    (refLen [⟨2147483647, 'M'⟩, ⟨1, 'M'⟩]).val = -2147483648 ∧
    ¬ 0 ≤ refLen [⟨2147483647, 'M'⟩, ⟨1, 'M'⟩] ∧
    ¬ 0 ≤ readLen [⟨2147483647, 'M'⟩, ⟨1, 'M'⟩] := by
  refine ⟨by decide, by decide, by decide, by decide⟩

/-- C14, amended: when every run length is non-negative and the sum of the
lengths of all runs is below `2 ^ 31`, `refLen` and `readLen` are non-negative
and at most the sum of the lengths of all runs. -/
theorem refLen_readLen_bounds (c : Cigar) (h : ∀ e ∈ c, 0 ≤ e.length)
    (hsum : totalLength c < 2147483648) :
    0 ≤ refLen c ∧ (refLen c).val ≤ totalLength c ∧
    0 ≤ readLen c ∧ (readLen c).val ≤ totalLength c := by
  obtain ⟨r1, r2⟩ := lengthWhere_bounds (fun t => t == 'M' || t == 'D' || t == 'X') c h
  obtain ⟨d1, d2⟩ :=
    lengthWhere_bounds (fun t => t == 'M' || t == 'I' || t == 'X' || t == 'S') c h
  have hr : (refLen c).val = lengthWhere (fun t => t == 'M' || t == 'D' || t == 'X') c := by
    rw [refLen_eq_lengthWhere, Int32.ofInt_val]
    exact wrap32_of_fits _ ⟨by omega, by omega⟩
  have hd : (readLen c).val =
      lengthWhere (fun t => t == 'M' || t == 'I' || t == 'X' || t == 'S') c := by
    rw [readLen_eq_lengthWhere, Int32.ofInt_val]
    exact wrap32_of_fits _ ⟨by omega, by omega⟩
  rw [Int32.nonneg_iff, Int32.nonneg_iff, hr, hd]
  exact ⟨r1, r2, d1, d2⟩

/-- Instance of C14 at `[(4,S),(10,M),(2,I),(3,D),(6,N)]`: `refLen` is 13,
`readLen` is 16 and the sum of all lengths is 25. -/
theorem refLen_readLen_bounds_witness :
    (∀ e ∈ ([⟨4, 'S'⟩, ⟨10, 'M'⟩, ⟨2, 'I'⟩, ⟨3, 'D'⟩, ⟨6, 'N'⟩] : Cigar), 0 ≤ e.length) ∧
    totalLength [⟨4, 'S'⟩, ⟨10, 'M'⟩, ⟨2, 'I'⟩, ⟨3, 'D'⟩, ⟨6, 'N'⟩] < 2147483648 ∧
    refLen [⟨4, 'S'⟩, ⟨10, 'M'⟩, ⟨2, 'I'⟩, ⟨3, 'D'⟩, ⟨6, 'N'⟩] = 13 ∧
    readLen [⟨4, 'S'⟩, ⟨10, 'M'⟩, ⟨2, 'I'⟩, ⟨3, 'D'⟩, ⟨6, 'N'⟩] = 16 ∧
    totalLength [⟨4, 'S'⟩, ⟨10, 'M'⟩, ⟨2, 'I'⟩, ⟨3, 'D'⟩, ⟨6, 'N'⟩] = 25 ∧
    (0 ≤ refLen [⟨4, 'S'⟩, ⟨10, 'M'⟩, ⟨2, 'I'⟩, ⟨3, 'D'⟩, ⟨6, 'N'⟩] ∧
      (refLen [⟨4, 'S'⟩, ⟨10, 'M'⟩, ⟨2, 'I'⟩, ⟨3, 'D'⟩, ⟨6, 'N'⟩]).val ≤
        totalLength [⟨4, 'S'⟩, ⟨10, 'M'⟩, ⟨2, 'I'⟩, ⟨3, 'D'⟩, ⟨6, 'N'⟩] ∧
      0 ≤ readLen [⟨4, 'S'⟩, ⟨10, 'M'⟩, ⟨2, 'I'⟩, ⟨3, 'D'⟩, ⟨6, 'N'⟩] ∧
      (readLen [⟨4, 'S'⟩, ⟨10, 'M'⟩, ⟨2, 'I'⟩, ⟨3, 'D'⟩, ⟨6, 'N'⟩]).val ≤
        totalLength [⟨4, 'S'⟩, ⟨10, 'M'⟩, ⟨2, 'I'⟩, ⟨3, 'D'⟩, ⟨6, 'N'⟩]) :=
  ⟨by decide, by decide, by decide, by decide, by decide,
    refLen_readLen_bounds _ (by decide) (by decide)⟩

/-- C15: digits after a well-formed text are dropped: the parse of the text
followed by a non-empty digit string is the parse of the text; a text of digits
only and the empty text parse to the empty `Cigar`. -/
theorem ofString_trailing_digits (toks : List Token) (d : List Char)
    (h : ∀ tk ∈ toks, wellFormedToken tk = true)
    (hne : d ≠ []) (hd : ∀ c ∈ d, isdigit c = true) :
    Cigar.ofString (tokensText toks ++ d) = Cigar.ofString (tokensText toks) ∧
    Cigar.ofString d = [] ∧ Cigar.ofString [] = [] := by
  refine ⟨?_, ?_, by decide⟩
  · rw [ofString_tokens_trailing toks h d hne hd, ofString_tokens toks h]
  · simpa [tokensText, tokenRuns] using ofString_tokens_trailing [] (by simp) d hne hd

/-- Instance of C15: `5M3I` followed by `42` parses to `[(5,M),(3,I)]`, as `5M3I`
does, and `42` alone parses to the empty `Cigar`. -/
theorem ofString_trailing_digits_witness :
    (∀ tk ∈ ([("5".toList, 'M'), ("3".toList, 'I')] : List Token), wellFormedToken tk = true) ∧
    "42".toList ≠ [] ∧ (∀ c ∈ "42".toList, isdigit c = true) ∧
    tokensText [("5".toList, 'M'), ("3".toList, 'I')] ++ "42".toList = "5M3I42".toList ∧
    Cigar.ofString "5M3I42".toList = [⟨5, 'M'⟩, ⟨3, 'I'⟩] ∧
    (Cigar.ofString (tokensText [("5".toList, 'M'), ("3".toList, 'I')] ++ "42".toList) =
        Cigar.ofString (tokensText [("5".toList, 'M'), ("3".toList, 'I')]) ∧
      Cigar.ofString "42".toList = [] ∧ Cigar.ofString [] = []) :=
  ⟨by decide, by decide, by decide, by decide, by decide,
    ofString_trailing_digits _ _ (by decide) (by decide) (by decide)⟩

/-- C16, the code at the failing input: the text `X5M` parses to
`[(0,X),(5,M)]`, while `5M` parses to `[(5,M)]`; the result is not empty and,
being longer, is no contiguous part of the parse of `5M`: the run `(0,X)` is
emitted for the leading non-digit. -/
theorem ofString_leading_nondigit_emits_run :
    isdigit 'X' = false ∧
    Cigar.ofString "5M".toList = [⟨5, 'M'⟩] ∧
    Cigar.ofString "X5M".toList = [⟨0, 'X'⟩, ⟨5, 'M'⟩] ∧
    Cigar.ofString "X5M".toList ≠ [] ∧
    (Cigar.ofString "5M".toList).length < (Cigar.ofString "X5M".toList).length ∧
    ¬ (Cigar.ofString "X5M".toList <:+: Cigar.ofString "5M".toList) := by
  refine ⟨by decide, by decide, by decide, by decide, by decide, ?_⟩
  intro h
  have hlen := h.length_le
  revert hlen
  decide

/-- C17 as stated fails: the text `2147483648M` parses to the one run
`(-2147483648, M)`, because `atoi` returns an `int`, while the value of the
digit string is 2147483648. -/
theorem ofString_atoi_overflow_counterexample :
    "2147483648".toList ≠ [] ∧ (∀ c ∈ "2147483648".toList, isdigit c = true) ∧
    "M".toList ≠ [] ∧ (∀ c ∈ "M".toList, isdigit c = false) ∧
    decimalValue "2147483648".toList = 2147483648 ∧
    Cigar.ofString ("2147483648".toList ++ "M".toList) = [⟨Int32.ofInt (-2147483648), 'M'⟩] ∧
    (Int32.ofInt (-2147483648)).val = -2147483648 := by
  refine ⟨by decide, by decide, by decide, by decide, by decide, by decide, by decide⟩

/-- C17, amended: a non-empty digit string `d` whose value lies in the range of
`int`, followed by a non-empty string `t` of non-digits, parses to the one run
`(value of d, first character of t)`, and when a well-formed text follows, that
run comes first and the parse of the following text comes after it. -/
theorem ofString_multichar_operation (d t : List Char) (toks : List Token)
    (hne : d ≠ []) (hd : ∀ c ∈ d, isdigit c = true)
    (hv : fitsInt (decimalValue d))
    (htne : t ≠ []) (ht : ∀ c ∈ t, isdigit c = false)
    (h : ∀ tk ∈ toks, wellFormedToken tk = true) :
    Cigar.ofString (d ++ t) = [⟨⟨decimalValue d, hv⟩, t.head htne⟩] ∧
    Cigar.ofString (d ++ t ++ tokensText toks) =
      ⟨⟨decimalValue d, hv⟩, t.head htne⟩ :: Cigar.ofString (tokensText toks) := by
  obtain ⟨t0, ts, rfl⟩ := List.exists_cons_of_ne_nil htne
  have hlt : decimalValue d < 2147483648 := by
    have := hv.2
    omega
  have ha : atoi d = ⟨decimalValue d, hv⟩ := Int32.ext (atoi_of_small d hd hlt).2
  constructor
  · simpa [tokensText, tokenRuns, ha] using ofString_multichar d t0 ts [] hne hd ht (by simp)
  · rw [ofString_multichar d t0 ts toks hne hd ht h, ofString_tokens toks h, ha]
    simp

/-- Instance of C17: `12MXY` parses to `[(12,M)]` and `12MXY3I` to
`[(12,M),(3,I)]`. -/
theorem ofString_multichar_operation_witness :
    "12".toList ≠ [] ∧ (∀ c ∈ "12".toList, isdigit c = true) ∧
    fitsInt (decimalValue "12".toList) ∧
    "MXY".toList ≠ [] ∧ (∀ c ∈ "MXY".toList, isdigit c = false) ∧
    (∀ tk ∈ ([("3".toList, 'I')] : List Token), wellFormedToken tk = true) ∧
    decimalValue "12".toList = 12 ∧
    Cigar.ofString ("12".toList ++ "MXY".toList) = [⟨12, 'M'⟩] ∧
    Cigar.ofString ("12".toList ++ "MXY".toList ++ tokensText [("3".toList, 'I')]) =
      ⟨12, 'M'⟩ :: Cigar.ofString (tokensText [("3".toList, 'I')]) := by
  have hw := ofString_multichar_operation "12".toList "MXY".toList [("3".toList, 'I')]
    (by decide) (by decide) (by decide) (by decide) (by decide) (by decide)
  refine ⟨by decide, by decide, by decide, by decide, by decide, by decide, by decide, ?_, ?_⟩
  · rw [hw.1]; decide
  · rw [hw.2]; decide

/-- C18: for every sequence of runs with non-negative lengths and non-digit
operations, adjacent equal operations and zero lengths included, parsing the
rendered text returns exactly that sequence. -/
theorem roundtrip_without_adjacency (seq : Cigar)
    (hlen : ∀ e ∈ seq, 0 ≤ e.length) (hop : ∀ e ∈ seq, isdigit e.type = false) :
    Cigar.ofString (str seq) = seq :=
  ofString_str seq (fun e he => ⟨hlen e he, hop e he⟩)

/-- Instance of C18 at `[(0,M),(3,M),(3,M),(0,I)]`, rendered `0M3M3M0I`. -/
theorem roundtrip_without_adjacency_witness :
    (∀ e ∈ ([⟨0, 'M'⟩, ⟨3, 'M'⟩, ⟨3, 'M'⟩, ⟨0, 'I'⟩] : Cigar), 0 ≤ e.length) ∧
    (∀ e ∈ ([⟨0, 'M'⟩, ⟨3, 'M'⟩, ⟨3, 'M'⟩, ⟨0, 'I'⟩] : Cigar), isdigit e.type = false) ∧
    noAdjacentSame [⟨0, 'M'⟩, ⟨3, 'M'⟩, ⟨3, 'M'⟩, ⟨0, 'I'⟩] = false ∧
    str [⟨0, 'M'⟩, ⟨3, 'M'⟩, ⟨3, 'M'⟩, ⟨0, 'I'⟩] = "0M3M3M0I".toList ∧
    Cigar.ofString (str [⟨0, 'M'⟩, ⟨3, 'M'⟩, ⟨3, 'M'⟩, ⟨0, 'I'⟩]) =
      [⟨0, 'M'⟩, ⟨3, 'M'⟩, ⟨3, 'M'⟩, ⟨0, 'I'⟩] :=
  ⟨by decide, by decide, by decide, by decide,
    roundtrip_without_adjacency _ (by decide) (by decide)⟩

/-- C19 as stated fails: `a = [(1,I)]`, `b = [(2147483647,M)]` and
`c = [(2147483647,M),(2,M)]` have non-negative lengths and none is a single
zero-length run, yet `append b c` is `[(0,M)]`, its `int` length having wrapped,
so the left grouping is `[(1,I),(0,M)]` and the right grouping is `[(1,I)]`. -/
theorem append_assoc_overflow_counterexample :
    (∀ e ∈ ([⟨1, 'I'⟩] : Cigar), 0 ≤ e.length) ∧
    (∀ e ∈ ([⟨2147483647, 'M'⟩] : Cigar), 0 ≤ e.length) ∧
    (∀ e ∈ ([⟨2147483647, 'M'⟩, ⟨2, 'M'⟩] : Cigar), 0 ≤ e.length) ∧
    (¬ ∃ t, ([⟨1, 'I'⟩] : Cigar) = [⟨0, t⟩]) ∧
    (¬ ∃ t, ([⟨2147483647, 'M'⟩] : Cigar) = [⟨0, t⟩]) ∧
    (¬ ∃ t, ([⟨2147483647, 'M'⟩, ⟨2, 'M'⟩] : Cigar) = [⟨0, t⟩]) ∧
    append [⟨2147483647, 'M'⟩] [⟨2147483647, 'M'⟩, ⟨2, 'M'⟩] = [⟨0, 'M'⟩] ∧
    append (append [⟨1, 'I'⟩] [⟨2147483647, 'M'⟩]) [⟨2147483647, 'M'⟩, ⟨2, 'M'⟩] =
      [⟨1, 'I'⟩, ⟨0, 'M'⟩] ∧
    append [⟨1, 'I'⟩] (append [⟨2147483647, 'M'⟩] [⟨2147483647, 'M'⟩, ⟨2, 'M'⟩]) =
      [⟨1, 'I'⟩] := by
  refine ⟨by decide, by decide, by decide, not_single_zero _ (by decide),
    not_single_zero _ (by decide), not_single_zero _ (by decide), by decide, by decide,
    by decide⟩

/-- C19, amended: for `a`, `b` and `c` with non-negative run lengths, none of
them a single zero-length run, such that `append b c` is not a single
zero-length run either, the two groupings of `append` are the same sequence of
runs. -/
theorem append_assoc_run_sequences (a b c : Cigar)
    (_han : ∀ e ∈ a, 0 ≤ e.length) (_hbn : ∀ e ∈ b, 0 ≤ e.length)
    (_hcn : ∀ e ∈ c, 0 ≤ e.length)
    (_ha : ¬ ∃ t, a = [⟨0, t⟩]) (hb : ¬ ∃ t, b = [⟨0, t⟩]) (_hc : ¬ ∃ t, c = [⟨0, t⟩])
    (hbc : ¬ ∃ t, append b c = [⟨0, t⟩]) :
    append (append a b) c = append a (append b c) :=
  append_assoc_runs a b c (isSentinel_eq_false b hb) (isSentinel_eq_false _ hbc)

/-- Instance of C19 at `a = [(4,S),(5,M)]`, `b = [(3,M),(0,M)]`, `c = [(1,M),(2,I)]`:
`append b c` is `[(3,M),(1,M),(2,I)]` and both groupings are
`[(4,S),(9,M),(2,I)]`. -/
theorem append_assoc_run_sequences_witness :
    (∀ e ∈ ([⟨4, 'S'⟩, ⟨5, 'M'⟩] : Cigar), 0 ≤ e.length) ∧
    (∀ e ∈ ([⟨3, 'M'⟩, ⟨0, 'M'⟩] : Cigar), 0 ≤ e.length) ∧
    (∀ e ∈ ([⟨1, 'M'⟩, ⟨2, 'I'⟩] : Cigar), 0 ≤ e.length) ∧
    (¬ ∃ t, ([⟨4, 'S'⟩, ⟨5, 'M'⟩] : Cigar) = [⟨0, t⟩]) ∧
    (¬ ∃ t, ([⟨3, 'M'⟩, ⟨0, 'M'⟩] : Cigar) = [⟨0, t⟩]) ∧
    (¬ ∃ t, ([⟨1, 'M'⟩, ⟨2, 'I'⟩] : Cigar) = [⟨0, t⟩]) ∧
    (¬ ∃ t, append [⟨3, 'M'⟩, ⟨0, 'M'⟩] [⟨1, 'M'⟩, ⟨2, 'I'⟩] = [⟨0, t⟩]) ∧
    append (append [⟨4, 'S'⟩, ⟨5, 'M'⟩] [⟨3, 'M'⟩, ⟨0, 'M'⟩]) [⟨1, 'M'⟩, ⟨2, 'I'⟩] =
      [⟨4, 'S'⟩, ⟨9, 'M'⟩, ⟨2, 'I'⟩] ∧
    append (append [⟨4, 'S'⟩, ⟨5, 'M'⟩] [⟨3, 'M'⟩, ⟨0, 'M'⟩]) [⟨1, 'M'⟩, ⟨2, 'I'⟩] =
      append [⟨4, 'S'⟩, ⟨5, 'M'⟩] (append [⟨3, 'M'⟩, ⟨0, 'M'⟩] [⟨1, 'M'⟩, ⟨2, 'I'⟩]) :=
  ⟨by decide, by decide, by decide, not_single_zero _ (by decide),
    not_single_zero _ (by decide), not_single_zero _ (by decide),
    not_single_zero _ (by decide), by decide,
    append_assoc_run_sequences _ _ _ (by decide) (by decide) (by decide)
      (not_single_zero _ (by decide)) (not_single_zero _ (by decide))
      (not_single_zero _ (by decide)) (not_single_zero _ (by decide))⟩

/-- C20 as stated fails: with `a = [(2147483647,M)]` and `b = [(1,M)]`, `refLen`
and `readLen` of `append a b` are -2147483648, while the sums of the values for
`a` and for `b` are 2147483648; the same holds for `join` of the two. -/
theorem refLen_readLen_additive_counterexample :
    (refLen (append [⟨2147483647, 'M'⟩] [⟨1, 'M'⟩])).val = -2147483648 ∧
    (refLen [⟨2147483647, 'M'⟩]).val + (refLen [⟨1, 'M'⟩]).val = 2147483648 ∧
    (readLen (append [⟨2147483647, 'M'⟩] [⟨1, 'M'⟩])).val = -2147483648 ∧
    (readLen [⟨2147483647, 'M'⟩]).val + (readLen [⟨1, 'M'⟩]).val = 2147483648 ∧
    (refLen (join [[⟨2147483647, 'M'⟩], [⟨1, 'M'⟩]])).val = -2147483648 := by
  refine ⟨by decide, by decide, by decide, by decide, by decide⟩

/-- C20, amended: `refLen` of `append a b` is the sum of `refLen a` and
`refLen b` when that sum lies in the range of `int`, and likewise for `readLen`;
`refLen` of `join cs` is the sum of `refLen` over `cs` when that sum lies in the
range of `int`, and likewise for `readLen`. -/
theorem refLen_readLen_additive :
    (∀ a b : Cigar,
      (fitsInt ((refLen a).val + (refLen b).val) →
        (refLen (append a b)).val = (refLen a).val + (refLen b).val) ∧
      (fitsInt ((readLen a).val + (readLen b).val) →
        (readLen (append a b)).val = (readLen a).val + (readLen b).val)) ∧
    (∀ cs : List Cigar,
      (fitsInt (cs.map (fun c => (refLen c).val)).sum →
        (refLen (join cs)).val = (cs.map (fun c => (refLen c).val)).sum) ∧
      (fitsInt (cs.map (fun c => (readLen c).val)).sum →
        (readLen (join cs)).val = (cs.map (fun c => (readLen c).val)).sum)) := by
  refine ⟨fun a b => ⟨fun hf => ?_, fun hf => ?_⟩, fun cs => ⟨fun hf => ?_, fun hf => ?_⟩⟩
  · rw [← wrap32_of_fits _ hf]
    simp only [refLen_eq_lengthWhere]
    exact ofInt_lengthWhere_append _ a b
  · rw [← wrap32_of_fits _ hf]
    simp only [readLen_eq_lengthWhere]
    exact ofInt_lengthWhere_append _ a b
  · rw [← wrap32_of_fits _ hf]
    simp only [refLen_eq_lengthWhere]
    exact ofInt_lengthWhere_join _ cs
  · rw [← wrap32_of_fits _ hf]
    simp only [readLen_eq_lengthWhere]
    exact ofInt_lengthWhere_join _ cs

/-- Instance of C20 at `a = [(4,S),(5,M)]` and `b = [(3,M),(2,D)]`: `refLen` is
5 and 5 and 10 for `append a b`, `readLen` is 9 and 3 and 12. -/
theorem refLen_readLen_additive_witness :
    fitsInt ((refLen [⟨4, 'S'⟩, ⟨5, 'M'⟩]).val + (refLen [⟨3, 'M'⟩, ⟨2, 'D'⟩]).val) ∧
    fitsInt ((readLen [⟨4, 'S'⟩, ⟨5, 'M'⟩]).val + (readLen [⟨3, 'M'⟩, ⟨2, 'D'⟩]).val) ∧
    append [⟨4, 'S'⟩, ⟨5, 'M'⟩] [⟨3, 'M'⟩, ⟨2, 'D'⟩] = [⟨4, 'S'⟩, ⟨8, 'M'⟩, ⟨2, 'D'⟩] ∧
    (refLen (append [⟨4, 'S'⟩, ⟨5, 'M'⟩] [⟨3, 'M'⟩, ⟨2, 'D'⟩])).val = 5 + 5 ∧
    (readLen (append [⟨4, 'S'⟩, ⟨5, 'M'⟩] [⟨3, 'M'⟩, ⟨2, 'D'⟩])).val = 9 + 3 ∧
    (refLen (join [[⟨4, 'S'⟩, ⟨5, 'M'⟩], [⟨3, 'M'⟩, ⟨2, 'D'⟩]])).val = 10 := by
  have hw := refLen_readLen_additive
  refine ⟨by decide, by decide, by decide, ?_, ?_, ?_⟩
  · rw [(hw.1 [⟨4, 'S'⟩, ⟨5, 'M'⟩] [⟨3, 'M'⟩, ⟨2, 'D'⟩]).1 (by decide)]; decide
  · rw [(hw.1 [⟨4, 'S'⟩, ⟨5, 'M'⟩] [⟨3, 'M'⟩, ⟨2, 'D'⟩]).2 (by decide)]; decide
  · rw [(hw.2 [[⟨4, 'S'⟩, ⟨5, 'M'⟩], [⟨3, 'M'⟩, ⟨2, 'D'⟩]]).1 (by decide)]; decide

end Glia
